import Mathlib

/-!
# Verification of the pep440-rs version core

A shallow embedding of the `pep440-rs` crate (files `types.rs`, `compare.rs`,
`parse.rs`) together with proofs about its ordering, containment, construction
and parsing/normalization behaviour.

Modelling conventions:
* Rust `usize` is modelled as `Nat`.  The only place where the machine width
  is semantically visible is the sentinel `dev.unwrap_or(usize::MAX)` inside
  `sortable_tuple`; we model that component as an `Option Nat` ordered with
  `none` greatest, which is exactly the role the sentinel plays.
* Rust `String` values are modelled as `List Char`.
* Fallible functions (`Result<_, String>` in Rust) become `Except (List Char) _`
  or `Option _` when no claim inspects the error message.
-/

set_option maxHeartbeats 1000000

/-- Alpha/beta/rc prerelease marker (`PreRelease` in `types.rs`). -/
inductive PreRelease where
  | Alpha : PreRelease
  | Beta : PreRelease
  | Rc : PreRelease
deriving DecidableEq, Repr

/-- One segment of a local version identifier (`LocalSegment` in `types.rs`). -/
inductive LocalSegment where
  | String : List Char → LocalSegment
  | Number : Nat → LocalSegment
deriving DecidableEq, Repr

/-- A PEP 440 version (`Version` in `types.rs`). -/
structure Version where
  epoch : Nat
  release : List Nat
  pre : Option (PreRelease × Nat)
  post : Option Nat
  dev : Option Nat
  «local» : Option (List LocalSegment)
deriving DecidableEq, Repr

/-- The nine specifier operators (`Operator` in `types.rs`). -/
inductive Operator where
  | Equal : Operator
  | EqualStar : Operator
  | ExactEqual : Operator
  | NotEqual : Operator
  | NotEqualStar : Operator
  | TildeEqual : Operator
  | LessThan : Operator
  | LessThanEqual : Operator
  | GreaterThan : Operator
  | GreaterThanEqual : Operator
deriving DecidableEq, Repr

/-- An operator/version pair (`VersionSpecifier` in `types.rs`). -/
structure VersionSpecifier where
  operator : Operator
  version : Version
deriving DecidableEq, Repr

/-! ## Ordering engine (`compare.rs`) -/

/-- The `for (a, b) in iterator { if a != b { return a.cmp(b) } }` loop of
`compare_release`. -/
def compare_release_loop : List (Nat × Nat) → Ordering
  | [] => Ordering.eq
  | (a, b) :: rest => if a ≠ b then compare a b else compare_release_loop rest

/-- `compare_release` from `compare.rs`: the shorter release is padded with
zeros (`this.iter().chain(iter::repeat(&0)).zip(other)` and symmetrically;
zipping with the infinitely repeated `0` is the same as padding the shorter
list with zeros to the other list's length). -/
def compare_release (this other : List Nat) : Ordering :=
  let iterator : List (Nat × Nat) :=
    if this.length < other.length then
      (this ++ List.replicate (other.length - this.length) 0).zip other
    else
      this.zip (other ++ List.replicate (this.length - other.length) 0)
  compare_release_loop iterator

/-- Bytewise lexicographic comparison of char lists; on the ASCII-only local
segments produced by the parser this is exactly Rust's `String` ordering. -/
def listCharCmp : List Char → List Char → Ordering
  | [], [] => Ordering.eq
  | [], _ :: _ => Ordering.lt
  | _ :: _, [] => Ordering.gt
  | c1 :: t1, c2 :: t2 =>
    if c1.toNat ≠ c2.toNat then compare c1.toNat c2.toNat else listCharCmp t1 t2

/-- Comparison of local segments (`Ord for LocalSegment` in `compare.rs`):
numbers beat strings, same variants compare natively. -/
def LocalSegment.cmp : LocalSegment → LocalSegment → Ordering
  | LocalSegment.Number n1, LocalSegment.Number n2 => compare n1 n2
  | LocalSegment.String s1, LocalSegment.String s2 => listCharCmp s1 s2
  | LocalSegment.Number _, LocalSegment.String _ => Ordering.gt
  | LocalSegment.String _, LocalSegment.Number _ => Ordering.lt

/-- Lexicographic comparison of lists given a comparison on elements; this is
Rust's derived `Ord` for `Vec<T>` (a strict prefix sorts first). -/
def listCmpWith (f : α → α → Ordering) : List α → List α → Ordering
  | [], [] => Ordering.eq
  | [], _ :: _ => Ordering.lt
  | _ :: _, [] => Ordering.gt
  | a :: as_, b :: bs =>
    match f a b with
    | Ordering.eq => listCmpWith f as_ bs
    | o => o

/-- Rust's derived `Ord` for `Option<T>`: `None` sorts before any `Some`. -/
def optionCmpWith (f : α → α → Ordering) : Option α → Option α → Ordering
  | none, none => Ordering.eq
  | none, some _ => Ordering.lt
  | some _, none => Ordering.gt
  | some a, some b => f a b

/-- Comparison of the `dev` component of the sortable tuple.  In the source the
component is `dev.unwrap_or(usize::MAX)`: a missing dev number sorts after any
present one, which we model as an `Option Nat` with `none` greatest. -/
def devCmp : Option Nat → Option Nat → Ordering
  | none, none => Ordering.eq
  | none, some _ => Ordering.gt
  | some _, none => Ordering.lt
  | some a, some b => compare a b

/-- The 5-tuple `(phase, preN, post, dev, local)` built by `sortable_tuple` in
`compare.rs`. -/
structure SortKey where
  phase : Nat
  preN : Nat
  postK : Option Nat
  devK : Option Nat
  localK : Option (List LocalSegment)

/-- Lexicographic comparison of sortable tuples, mirroring Rust's derived
tuple `Ord` (with the `usize::MAX` sentinel for `dev` folded into `devCmp`). -/
def SortKey.cmp (x y : SortKey) : Ordering :=
  match compare x.phase y.phase with
  | Ordering.eq =>
    match compare x.preN y.preN with
    | Ordering.eq =>
      match optionCmpWith compare x.postK y.postK with
      | Ordering.eq =>
        match devCmp x.devK y.devK with
        | Ordering.eq => optionCmpWith (listCmpWith LocalSegment.cmp) x.localK y.localK
        | o => o
      | o => o
    | o => o
  | o => o

/-- `sortable_tuple` from `compare.rs`:
`({dev: 0, a: 1, b: 2, rc: 3, (): 4, post: 5}, preN, postN or None, devN or MAX, local)`. -/
def sortable_tuple (version : Version) : SortKey :=
  match version.pre, version.post, version.dev with
  | none, none, some n =>
    { phase := 0, preN := 0, postK := none, devK := some n, localK := version.«local» }
  | some (PreRelease.Alpha, n), post, dev =>
    { phase := 1, preN := n, postK := post, devK := dev, localK := version.«local» }
  | some (PreRelease.Beta, n), post, dev =>
    { phase := 2, preN := n, postK := post, devK := dev, localK := version.«local» }
  | some (PreRelease.Rc, n), post, dev =>
    { phase := 3, preN := n, postK := post, devK := dev, localK := version.«local» }
  | none, none, none =>
    { phase := 4, preN := 0, postK := none, devK := some 0, localK := version.«local» }
  | none, some post, dev =>
    { phase := 5, preN := 0, postK := some post, devK := dev, localK := version.«local» }

/-- `Ord for Version` (`compare.rs`): epoch, then zero-padded release, then the
sortable tuples.  Note that for a final release `sortable_tuple` yields dev
component `0` (not the sentinel); we keep that faithfully as `some 0`. -/
def Version.cmp (self other : Version) : Ordering :=
  if self.epoch ≠ other.epoch then compare self.epoch other.epoch
  else
    match compare_release self.release other.release with
    | Ordering.lt => Ordering.lt
    | Ordering.gt => Ordering.gt
    | Ordering.eq => SortKey.cmp (sortable_tuple self) (sortable_tuple other)

/-- `PartialEq for Version` is implemented via `cmp` in `compare.rs`. -/
def Version.beq (self other : Version) : Bool := Version.cmp self other == Ordering.eq

/-- `<` on versions, derived from the total order. -/
def Version.lt (self other : Version) : Bool := Version.cmp self other == Ordering.lt

/-- `>` on versions, derived from the total order. -/
def Version.gt (self other : Version) : Bool := Version.cmp self other == Ordering.gt

/-- `<=` on versions, derived from the total order. -/
def Version.le (self other : Version) : Bool := Version.cmp self other != Ordering.gt

/-- `>=` on versions, derived from the total order. -/
def Version.ge (self other : Version) : Bool := Version.cmp self other != Ordering.lt

/-! ## `Version` helper methods (`types.rs`) -/

/-- `Version::is_pre`. -/
def Version.is_pre (v : Version) : Bool := v.pre.isSome

/-- `Version::is_dev`. -/
def Version.is_dev (v : Version) : Bool := v.dev.isSome

/-- `Version::any_prerelease`: alpha/beta/rc or dev. -/
def Version.any_prerelease (v : Version) : Bool := v.is_pre || v.is_dev

/-- `Version::is_post`. -/
def Version.is_post (v : Version) : Bool := v.post.isSome

/-- `Version::is_local`. -/
def Version.is_local (v : Version) : Bool := v.«local».isSome

/-- `Version::without_local`. -/
def Version.without_local (v : Version) : Version := { v with «local» := none }

/-! ## Canonical display (`Display` impls in `types.rs`) -/

/-- Decimal digit character for `d < 10`. -/
def digitChar (d : Nat) : Char := Char.ofNat (48 + d)

/-- Decimal digits of `n`, most significant first, with explicit fuel (the
fuel-free specification is division by 10 until the value is below 10; fuel
`n + 1` always suffices). -/
def natDigitsAux : Nat → Nat → List Char
  | 0, _ => []
  | fuel + 1, n =>
    if n < 10 then [digitChar n]
    else natDigitsAux fuel (n / 10) ++ [digitChar (n % 10)]

/-- Decimal representation of a `Nat`, as produced by Rust's
`usize::to_string` (no sign, no leading zeros, `"0"` for zero). -/
def natDigits (n : Nat) : List Char := natDigitsAux (n + 1) n

/-- `Display for PreRelease`: `a`, `b`, `rc`. -/
def PreRelease.to_text : PreRelease → List Char
  | PreRelease.Alpha => ['a']
  | PreRelease.Beta => ['b']
  | PreRelease.Rc => ['r', 'c']

/-- `Display for LocalSegment`. -/
def LocalSegment.to_text : LocalSegment → List Char
  | LocalSegment.String s => s
  | LocalSegment.Number n => natDigits n

/-- `[..].join(".")` as used by the `Display` impl and the error messages. -/
def joinDot : List (List Char) → List Char
  | [] => []
  | [x] => x
  | x :: xs => x ++ '.' :: joinDot xs

/-- `Display for Version` (`types.rs`): `[epoch!]release[{a|b|rc}N][.postN][.devN][+local]`
(the brackets denote optional parts). -/
def Version.to_text (v : Version) : List Char :=
  (if v.epoch = 0 then [] else natDigits v.epoch ++ ['!'])
    ++ joinDot (v.release.map natDigits)
    ++ (match v.pre with
        | some (kind, n) => kind.to_text ++ natDigits n
        | none => [])
    ++ (match v.post with
        | some n => '.' :: 'p' :: 'o' :: 's' :: 't' :: natDigits n
        | none => [])
    ++ (match v.dev with
        | some n => '.' :: 'd' :: 'e' :: 'v' :: natDigits n
        | none => [])
    ++ (match v.«local» with
        | some segments => '+' :: joinDot (segments.map LocalSegment.to_text)
        | none => [])

/-- `Display for Operator` (`types.rs`). -/
def Operator.to_text : Operator → List Char
  | Operator.Equal => ['=', '=']
  | Operator.EqualStar => ['=', '=']
  | Operator.ExactEqual => ['=', '=', '=']
  | Operator.NotEqual => ['!', '=']
  | Operator.NotEqualStar => ['!', '=']
  | Operator.TildeEqual => ['~', '=']
  | Operator.LessThan => ['<']
  | Operator.LessThanEqual => ['<', '=']
  | Operator.GreaterThan => ['>']
  | Operator.GreaterThanEqual => ['>', '=']

/-! ## Specifier construction (`VersionSpecifier::new` in `types.rs`) -/

/-- The `matches!` test in `VersionSpecifier::new`: operators that may not be
combined with a local version. -/
def op_forbids_local : Operator → Bool
  | Operator.GreaterThan => true
  | Operator.GreaterThanEqual => true
  | Operator.LessThan => true
  | Operator.LessThanEqual => true
  | Operator.TildeEqual => true
  | Operator.EqualStar => true
  | Operator.NotEqualStar => true
  | _ => false

/-- The `"You can't mix a {} operator with a local version (`+{}`)"` message. -/
def mix_local_error (operator : Operator) (l : List LocalSegment) : List Char :=
  "You can't mix a ".data ++ operator.to_text
    ++ " operator with a local version (`+".data
    ++ joinDot (l.map LocalSegment.to_text) ++ "`)".data

/-- The `~=`-needs-two-release-parts message. -/
def tilde_release_error : List Char :=
  "The ~= operator requires at least two parts in the release version".data

/-- `VersionSpecifier::new` (`types.rs`): validates operator/version
compatibility and otherwise stores the pair unchanged. -/
def VersionSpecifier.new (operator : Operator) (version : Version) :
    Except (List Char) VersionSpecifier :=
  match version.«local» with
  | some l =>
    if op_forbids_local operator then Except.error (mix_local_error operator l)
    else if operator = Operator.TildeEqual ∧ version.release.length < 2 then
      Except.error tilde_release_error
    else
      Except.ok { operator := operator, version := version }
  | none =>
    if operator = Operator.TildeEqual ∧ version.release.length < 2 then
      Except.error tilde_release_error
    else
      Except.ok { operator := operator, version := version }

/-! ## Containment engine (`VersionSpecifier::contains` in `compare.rs`) -/

/-- `ipairs.all(|(a, b)| a == b)` over `a.iter().zip(&b)`. -/
def zipAllEq (a b : List Nat) : Bool := (a.zip b).all (fun p => p.1 == p.2)

/-- `VersionSpecifier::less_than` (`compare.rs`). -/
def VersionSpecifier.less_than (this other : Version) : Bool :=
  if other.epoch < this.epoch then true
  else if !this.any_prerelease && other.is_pre
      && compare_release this.release other.release == Ordering.eq then false
  else other.lt this

/-- `VersionSpecifier::greater_than` (`compare.rs`). -/
def VersionSpecifier.greater_than (this other : Version) : Bool :=
  if other.epoch > this.epoch then true
  else if compare_release this.release other.release == Ordering.eq
      && !this.is_post && other.is_post then false
  else if compare_release this.release other.release == Ordering.eq
      && other.is_local then false
  else other.gt this

/-- `VersionSpecifier::contains` (`compare.rs`).  Unless the specifier's own
version carries a local component, both sides are stripped of their local
component first.  The `assert!(this.release.len() > 1)` in the `TildeEqual`
arm is guaranteed by the constructor and is not part of the value-level
behaviour; the slice `release[..len - 1]` is `dropLast`. -/
def VersionSpecifier.contains (self : VersionSpecifier) (version : Version) : Bool :=
  let pair :=
    if self.version.«local».isSome then (self.version, version)
    else (self.version.without_local, version.without_local)
  let this := pair.1
  let other := pair.2
  match self.operator with
  | Operator.Equal => other.beq this
  | Operator.EqualStar =>
    this.epoch == other.epoch && zipAllEq self.version.release other.release
  | Operator.ExactEqual => self.version.to_text == version.to_text
  | Operator.NotEqual => !(other.beq this)
  | Operator.NotEqualStar =>
    this.epoch != other.epoch || !(zipAllEq this.release version.release)
  | Operator.TildeEqual =>
    if this.epoch ≠ other.epoch then false
    else if !(zipAllEq this.release.dropLast other.release) then false
    else other.ge this
  | Operator.GreaterThan => VersionSpecifier.greater_than this other
  | Operator.GreaterThanEqual =>
    VersionSpecifier.greater_than this other || other.ge this
  | Operator.LessThan =>
    VersionSpecifier.less_than this other
      && !(compare_release this.release other.release == Ordering.eq
            && other.any_prerelease)
  | Operator.LessThanEqual =>
    VersionSpecifier.less_than this other || other.le this

/-! ## Grammar matcher (the PEP 440 regex of `parse.rs`)

The regex `VERSION_RE` is anchored (`^\s* ... \s*$`), case-insensitive, and
deterministic enough that a recursive-descent matcher reproduces its final
match exactly:
* every numeric group is greedy and is always followed by context that cannot
  start with a digit, so maximal munch of digits is safe;
* the pre/post/dev name alternations are resolved longest-first (for `pre`)
  or in the regex's own order (for `post`, already longest-first where the
  names overlap); whenever a shorter alternative matches a prefix of a longer
  one, the character following the shorter match (`l` of `alpha`, `e` of
  `beta`, `v` of `preview`, `e` of `rev`) can begin no later grammar element,
  so the regex backtracks to the longer alternative exactly when it is viable;
* the optional separator `[-_.]?` groups are greedy; consuming a separator
  that is not followed by digits only diverges from a backtracking engine when
  the separator is the `.` of a trailing `.*`, and in that case the regex
  match carries both the suffix component and the wildcard, which
  `parse_version_impl` rejects — both matchers reject the string overall.
-/

/-- The regex crate's `\s` (Unicode White_Space). -/
def isSpaceChar (c : Char) : Bool :=
  let n := c.toNat
  (9 ≤ n && n ≤ 13) || n = 32 || n = 0x85 || n = 0xA0 || n = 0x1680
    || (0x2000 ≤ n && n ≤ 0x200A) || n = 0x2028 || n = 0x2029 || n = 0x202F
    || n = 0x205F || n = 0x3000

/-- ASCII lowercasing.  The grammar only feeds ASCII letters and digits here;
Rust's Unicode `to_lowercase` agrees with this on that domain. -/
def lowerChar (c : Char) : Char :=
  if 'A' ≤ c ∧ c ≤ 'Z' then Char.ofNat (c.toNat + 32) else c

/-- The separator class `[-_.]` of the regex (also what the builder splits a
local version on). -/
def isSepChar (c : Char) : Bool := c = '-' || c = '_' || c = '.'

/-- `span`: longest prefix satisfying `p`, plus the rest. -/
def spanP (p : Char → Bool) : List Char → List Char × List Char
  | [] => ([], [])
  | c :: cs =>
    if p c then
      let r := spanP p cs
      (c :: r.1, r.2)
    else ([], c :: cs)

/-- Greedy `[0-9]+`-style scan. -/
def digitSpan : List Char → List Char × List Char := spanP Char.isDigit

/-- Greedy scan for the first release segment, `[0-9*]+`. -/
def starSpan : List Char → List Char × List Char :=
  spanP (fun c => c.isDigit || c = '*')

/-- Greedy `[a-z0-9]+` scan (case-insensitive, so ASCII alphanumeric). -/
def alnumSpan : List Char → List Char × List Char := spanP Char.isAlphanum

/-- Case-insensitive literal keyword match; returns the rest on success. -/
def matchKw : List Char → List Char → Option (List Char)
  | [], cs => some cs
  | _ :: _, [] => none
  | k :: ks, c :: cs => if lowerChar c = k then matchKw ks cs else none

/-- First keyword of the list that matches; returns it and the rest. -/
def matchFirstKw : List (List Char) → List Char → Option (List Char × List Char)
  | [], _ => none
  | kw :: kws, cs =>
    match matchKw kw cs with
    | some rest => some (kw, rest)
    | none => matchFirstKw kws cs

/-- Drop one leading `[-_.]` separator if present (the greedy `[-_.]?`). -/
def stripSep : List Char → List Char
  | c :: rest => if isSepChar c then rest else c :: rest
  | [] => []

/-- The pre-release names `(a|b|c|rc|alpha|beta|pre|preview)`, longest first
(see the determinism discussion above). -/
def preNames : List (List Char) :=
  [['p','r','e','v','i','e','w'], ['a','l','p','h','a'], ['b','e','t','a'],
   ['p','r','e'], ['r','c'], ['a'], ['b'], ['c']]

/-- The post-release names `(post|rev|r)`, in the regex's order. -/
def postNames : List (List Char) := [['p','o','s','t'], ['r','e','v'], ['r']]

/-- The extra release segments `(?:\.[0-9]+)*`, fuel-recursive (fuel
`cs.length` always suffices: every iteration consumes at least two chars). -/
def relAux : Nat → List Char → List (List Char) × List Char
  | 0, cs => ([], cs)
  | fuel + 1, cs =>
    match cs with
    | c :: rest =>
      if c = '.' then
        match digitSpan rest with
        | ([], _) => ([], c :: rest)
        | (d :: ds, rest2) =>
          let r := relAux fuel rest2
          ((d :: ds) :: r.1, r.2)
      else ([], c :: rest)
    | [] => ([], [])

/-- The extra local segments `(?:[-_\.][a-z0-9]+)*`, fuel-recursive. -/
def localAux : Nat → List Char → List (List Char) × List Char
  | 0, cs => ([], cs)
  | fuel + 1, cs =>
    match cs with
    | c :: rest =>
      if isSepChar c then
        match alnumSpan rest with
        | ([], _) => ([], c :: rest)
        | (d :: ds, rest2) =>
          let r := localAux fuel rest2
          ((d :: ds) :: r.1, r.2)
      else ([], c :: rest)
    | [] => ([], [])

/-- The `pre` group: `[-_.]? name [-_.]? digits?`; `none` means the optional
group matched nothing (and consumed nothing). -/
def parsePreField (cs : List Char) :
    Option (List Char × Option (List Char)) × List Char :=
  match matchFirstKw preNames (stripSep cs) with
  | none => (none, cs)
  | some (name, cs2) =>
    let cs3 := stripSep cs2
    match digitSpan cs3 with
    | ([], _) => (some (name, none), cs3)
    | (d :: ds, cs4) => (some (name, some (d :: ds)), cs4)

/-- The keyword alternative of the `post` group; result is
`(post_old?, post_new?)`. -/
def parsePostKeyword (cs : List Char) :
    Option (Option (List Char) × Option (List Char)) × List Char :=
  match matchFirstKw postNames (stripSep cs) with
  | none => (none, cs)
  | some (_, cs2) =>
    let cs3 := stripSep cs2
    match digitSpan cs3 with
    | ([], _) => (some (none, none), cs3)
    | (d :: ds, cs4) => (some (none, some (d :: ds)), cs4)

/-- The `post` group: `(-[0-9]+) | ([-_.]?(post|rev|r)[-_.]?[0-9]+?)`. -/
def parsePostField (cs : List Char) :
    Option (Option (List Char) × Option (List Char)) × List Char :=
  match cs with
  | c :: rest =>
    if c = '-' then
      match digitSpan rest with
      | (d :: ds, rest2) => (some (some (d :: ds), none), rest2)
      | ([], _) => parsePostKeyword (c :: rest)
    else parsePostKeyword (c :: rest)
  | [] => parsePostKeyword []

/-- The `dev` group: `[-_.]? dev [-_.]? digits?`; the outer `Option` is the
whole group, the inner one the digits. -/
def parseDevField (cs : List Char) : Option (Option (List Char)) × List Char :=
  match matchKw ['d', 'e', 'v'] (stripSep cs) with
  | none => (none, cs)
  | some cs2 =>
    let cs3 := stripSep cs2
    match digitSpan cs3 with
    | ([], _) => (some none, cs3)
    | (d :: ds, cs4) => (some (some (d :: ds)), cs4)

/-- The local group `(?:\+([a-z0-9]+(?:[-_\.][a-z0-9]+)*))?`, returned already
split at the separators (the builder splits the raw capture on exactly the
separator class the regex allows between segments, so the segment list is the
same). -/
def parseLocal (cs : List Char) : Option (List (List Char)) × List Char :=
  match cs with
  | c :: rest =>
    if c = '+' then
      match alnumSpan rest with
      | ([], _) => (none, c :: rest)
      | (d :: ds, rest2) =>
        let r := localAux rest2.length rest2
        (some ((d :: ds) :: r.1), r.2)
    else (none, c :: rest)
  | [] => (none, [])

/-- The trailing `(\.\*)?`. -/
def parseStar : List Char → Bool × List Char
  | c1 :: c2 :: rest =>
    if c1 = '.' ∧ c2 = '*' then (true, rest) else (false, c1 :: c2 :: rest)
  | cs => (false, cs)

/-- The named captures of `VERSION_RE`. -/
structure Captures where
  epoch : Option (List Char)
  release : List (List Char)
  pre_name : Option (List Char)
  pre : Option (List Char)
  post_field : Bool
  post_old : Option (List Char)
  post_new : Option (List Char)
  dev_field : Bool
  dev : Option (List Char)
  «local» : Option (List (List Char))
  trailing_dot_star : Bool
deriving DecidableEq, Repr

/-- The optional, case-insensitive leading `v`. -/
def stripV : List Char → List Char
  | c :: rest => if lowerChar c = 'v' then rest else c :: rest
  | [] => []

/-- The optional epoch group `(?:([0-9]+)!)?`: digits immediately followed by
`!`, or nothing. -/
def matchEpoch (cs : List Char) : Option (List Char) × List Char :=
  match digitSpan cs with
  | (d :: ds, e :: rest) => if e = '!' then (some (d :: ds), rest) else (none, cs)
  | _ => (none, cs)

/-- The anchored, case-insensitive `VERSION_RE` match
`^\s* v? (epoch!)? release pre? post? dev? (\+local)? (\.\*)? \s*$`. -/
def matchVersion (cs : List Char) : Option Captures :=
  let cs1 := stripV (cs.dropWhile isSpaceChar)
  let ep : Option (List Char) × List Char := matchEpoch cs1
  match starSpan ep.2 with
  | ([], _) => none
  | (seg1, cs3) =>
    let rel := relAux cs3.length cs3
    let preF := parsePreField rel.2
    let postF := parsePostField preF.2
    let devF := parseDevField postF.2
    let loc := parseLocal devF.2
    let star := parseStar loc.2
    if (star.2.dropWhile isSpaceChar).isEmpty then
      some {
        epoch := ep.1
        release := seg1 :: rel.1
        pre_name := preF.1.map Prod.fst
        pre := preF.1.bind Prod.snd
        post_field := postF.1.isSome
        post_old := postF.1.bind Prod.fst
        post_new := postF.1.bind Prod.snd
        dev_field := devF.1.isSome
        dev := devF.1.join
        «local» := loc.1
        trailing_dot_star := star.1
      }
    else none

/-! ## Version builder (`parse_version_impl` in `parse.rs`) -/

/-- Value of an all-digit capture (the fold is plain base-10 accumulation). -/
def digitsToNat (cs : List Char) : Nat :=
  cs.foldl (fun a c => 10 * a + (c.toNat - 48)) 0

/-- Rust's `str::parse::<usize>` on a capture: succeeds exactly on non-empty
all-digit strings (we model the unbounded integer, so there is no overflow
failure). -/
def parseNatSeg (cs : List Char) : Option Nat :=
  if !cs.isEmpty && cs.all Char.isDigit then some (digitsToNat cs) else none

/-- `captures.release.split('.').map(parse).collect::<Result<Vec<_>>>`: parse
every release segment, failing if any fails. -/
def collectRelease : List (List Char) → Option (List Nat)
  | [] => some []
  | s :: rest => do
    let n ← parseNatSeg s
    let ns ← collectRelease rest
    pure (n :: ns)

/-- The `number_field` closure of `parse_version_impl`: absent capture is
`some none`, present captures must parse. -/
def number_field (cap : Option (List Char)) : Option (Option Nat) :=
  match cap with
  | some s => (parseNatSeg s).map some
  | none => some none

/-- `PreRelease::from_str` (`types.rs`), after lowercasing. -/
def PreRelease.from_str (prerelease : List Char) : Option PreRelease :=
  let l := prerelease.map lowerChar
  if l = ['a'] ∨ l = ['a','l','p','h','a'] then some PreRelease.Alpha
  else if l = ['b'] ∨ l = ['b','e','t','a'] then some PreRelease.Beta
  else if l = ['c'] ∨ l = ['r','c'] ∨ l = ['p','r','e'] ∨ l = ['p','r','e','v','i','e','w'] then
    some PreRelease.Rc
  else none

/-- The per-segment closure of the `local` handling in `parse_version_impl`:
numeric segments become `Number`, the rest are lowercased `String`s. -/
def toLocalSegment (segment : List Char) : LocalSegment :=
  match parseNatSeg segment with
  | some number => LocalSegment.Number number
  | none => LocalSegment.String (segment.map lowerChar)

/-- `parse_version_impl` (`parse.rs`): builds a `Version` plus the wildcard
flag from the captures, applying the implicit-zero defaults and rejecting a
wildcard combined with any suffix component. -/
def parse_version_impl (captures : Captures) : Option (Version × Bool) := do
  let epoch := (← number_field captures.epoch).getD 0
  let pre_type : Option PreRelease ←
    match captures.pre_name with
    | none => some none
    | some s => (PreRelease.from_str s).map some
  let pre_number := (← number_field captures.pre).getD 0
  let pre := pre_type.map (fun t => (t, pre_number))
  let post : Option Nat ←
    if captures.post_field then do
      let pn ← number_field captures.post_new
      let po ← number_field captures.post_old
      pure (some ((pn.or po).getD 0))
    else pure none
  let dev : Option Nat ←
    if captures.dev_field then do
      let d ← number_field captures.dev
      pure (some (d.getD 0))
    else pure none
  let localSegs := captures.«local».map (fun segs => segs.map toLocalSegment)
  let release ← collectRelease captures.release
  let star := captures.trailing_dot_star
  if star && pre.isSome then none
  else if star && post.isSome then none
  else if star && dev.isSome then none
  else if star && localSegs.isSome then none
  else
    pure ({ epoch := epoch, release := release, pre := pre, post := post,
            dev := dev, «local» := localSegs }, star)

/-- `Version::from_str` (`parse.rs`): the strict entry point, rejecting a
trailing wildcard. -/
def Version.from_str (version : List Char) : Option Version := do
  let captures ← matchVersion version
  let (v, star) ← parse_version_impl captures
  if star then none else pure v

/-! ## Auxiliary definitions used by the theorems -/

/-- Release comparison as the spec words it: pad **both** sequences with zeros
to the longer length, then compare pairwise, first difference deciding.  This
is the specification-side definition that `compare_release` is proved to
refine. -/
def padded_release_compare (r s : List Nat) : Ordering :=
  let m := max r.length s.length
  compare_release_loop
    ((r ++ List.replicate (m - r.length) 0).zip (s ++ List.replicate (m - s.length) 0))

/-- Recursive characterization of zero-padded release comparison (proof
helper). -/
def relCmpR : List Nat → List Nat → Ordering
  | [], [] => Ordering.eq
  | [], b :: bs => if 0 ≠ b then compare 0 b else relCmpR [] bs
  | a :: as_, [] => if a ≠ 0 then compare a 0 else relCmpR as_ []
  | a :: as_, b :: bs => if a ≠ b then compare a b else relCmpR as_ bs
termination_by r s => r.length + s.length

/-- The 14-element ordering chain documented on `Ord for Version`. -/
def chain_strings : List (List Char) :=
  ["1.0.dev456".data, "1.0a1".data, "1.0a2.dev456".data, "1.0a12.dev456".data,
   "1.0a12".data, "1.0b1.dev456".data, "1.0b2".data, "1.0b2.post345.dev456".data,
   "1.0b2.post345".data, "1.0c1.dev456".data, "1.0c1".data, "1.0".data,
   "1.0.post456.dev34".data, "1.0.post456".data]

/-- Shape invariant of local segments produced by the parser: a `String`
segment is non-empty, ASCII lowercase alphanumeric, and not all digits. -/
def validLocalSeg : LocalSegment → Bool
  | LocalSegment.Number _ => true
  | LocalSegment.String s =>
    !s.isEmpty && s.all (fun c => c.isLower || c.isDigit) && s.any (fun c => !c.isDigit)

/-- Shape invariant of every `Version` in the image of the parser: non-empty
release, and a well-formed non-empty local segment list when present. -/
def ValidVersion (v : Version) : Bool :=
  !v.release.isEmpty &&
    (match v.«local» with
     | none => true
     | some segs => !segs.isEmpty && segs.all validLocalSeg)

/-- The capture set produced by matching the canonical display of a (valid)
version: no `v` prefix, an epoch capture only when the epoch is nonzero, the
decimal release segments, the canonical pre/post/dev spellings, the local
segments, and no wildcard. -/
def capturesOf (v : Version) : Captures where
  epoch := if v.epoch = 0 then none else some (natDigits v.epoch)
  release := v.release.map natDigits
  pre_name := v.pre.map (fun p => p.1.to_text)
  pre := v.pre.map (fun p => natDigits p.2)
  post_field := v.post.isSome
  post_old := none
  post_new := v.post.map natDigits
  dev_field := v.dev.isSome
  dev := v.dev.map natDigits
  «local» := v.«local».map (fun segs => segs.map LocalSegment.to_text)
  trailing_dot_star := false

/-- The `.`-separated tail of a joined list: `joinDot (x :: xs) = x ++ relText xs`. -/
def relText : List (List Char) → List Char
  | [] => []
  | s :: ss => '.' :: s ++ relText ss

/-- The epoch part of the canonical display. -/
def epochText (e : Nat) : List Char := if e = 0 then [] else natDigits e ++ ['!']

/-- The pre-release part of the canonical display. -/
def preText : Option (PreRelease × Nat) → List Char
  | some (k, n) => k.to_text ++ natDigits n
  | none => []

/-- The post-release part of the canonical display. -/
def postText : Option Nat → List Char
  | some n => '.' :: 'p' :: 'o' :: 's' :: 't' :: natDigits n
  | none => []

/-- The dev-release part of the canonical display. -/
def devText : Option Nat → List Char
  | some n => '.' :: 'd' :: 'e' :: 'v' :: natDigits n
  | none => []

/-- The local part of the canonical display. -/
def localText : Option (List LocalSegment) → List Char
  | some segs => '+' :: joinDot (segs.map LocalSegment.to_text)
  | none => []

/-! ## Theorems -/

theorem loop_pad_left (r s : List Nat) (h : r.length ≤ s.length) :
    compare_release_loop ((r ++ List.replicate (s.length - r.length) 0).zip s)
      = relCmpR r s := by
  induction r generalizing s with
  | nil =>
    induction s with
    | nil => simp [compare_release_loop, relCmpR]
    | cons b bs ih =>
      simp only [List.nil_append, List.length_nil, Nat.sub_zero, List.length_cons,
        List.replicate_succ, List.zip_cons_cons, compare_release_loop, relCmpR]
      split
      · rfl
      · simpa using ih (by simp)
  | cons a as_ ih =>
    cases s with
    | nil => simp at h
    | cons b bs =>
      have h' : as_.length ≤ bs.length := by simpa using h
      have hlen : (b :: bs).length - (a :: as_).length = bs.length - as_.length := by
        simp
      rw [hlen]
      simp only [List.cons_append, List.zip_cons_cons, compare_release_loop, relCmpR]
      split
      · rfl
      · exact ih bs h'

theorem loop_pad_right (r s : List Nat) (h : s.length ≤ r.length) :
    compare_release_loop (r.zip (s ++ List.replicate (r.length - s.length) 0))
      = relCmpR r s := by
  induction r generalizing s with
  | nil =>
    cases s with
    | nil => simp [compare_release_loop, relCmpR]
    | cons b bs => simp at h
  | cons a as_ ih =>
    cases s with
    | nil =>
      simp only [List.nil_append, List.length_nil, Nat.sub_zero, List.length_cons,
        List.replicate_succ, List.zip_cons_cons, compare_release_loop, relCmpR]
      split
      · rfl
      · simpa using ih [] (by simp)
    | cons b bs =>
      have h' : bs.length ≤ as_.length := by simpa using h
      have hlen : (a :: as_).length - (b :: bs).length = as_.length - bs.length := by
        simp
      rw [hlen]
      simp only [List.cons_append, List.zip_cons_cons, compare_release_loop, relCmpR]
      split
      · rfl
      · exact ih bs h'

theorem compare_release_eq_relCmpR (r s : List Nat) : compare_release r s = relCmpR r s := by
  unfold compare_release
  by_cases hl : r.length < s.length
  · simp only [hl, if_true]
    exact loop_pad_left r s hl.le
  · simp only [hl, if_false]
    exact loop_pad_right r s (Nat.le_of_not_lt hl)

theorem padded_release_compare_eq_relCmpR (r s : List Nat) :
    padded_release_compare r s = relCmpR r s := by
  simp only [padded_release_compare]
  rcases Nat.le_total r.length s.length with h | h
  · rw [Nat.max_eq_right h, Nat.sub_self, List.replicate_zero, List.append_nil]
    exact loop_pad_left r s h
  · rw [Nat.max_eq_left h, Nat.sub_self, List.replicate_zero, List.append_nil]
    exact loop_pad_right r s h

theorem relCmpR_append_zeros_left (r s : List Nat) (k : Nat) :
    relCmpR (r ++ List.replicate k 0) s = relCmpR r s := by
  induction r generalizing s with
  | nil =>
    simp only [List.nil_append]
    induction k generalizing s with
    | zero => simp
    | succ k ihk =>
      cases s with
      | nil =>
        rw [List.replicate_succ]
        simp only [relCmpR, ne_eq, not_true_eq_false, if_false]
        rw [ihk []]
        simp [relCmpR]
      | cons b bs =>
        rw [List.replicate_succ]
        simp only [relCmpR]
        split
        · rfl
        · exact ihk bs
  | cons a as_ ih =>
    cases s with
    | nil =>
      simp only [List.cons_append, relCmpR]
      split
      · rfl
      · exact ih []
    | cons b bs =>
      simp only [List.cons_append, relCmpR]
      split
      · rfl
      · exact ih bs

theorem relCmpR_append_zeros_right (r s : List Nat) (k : Nat) :
    relCmpR r (s ++ List.replicate k 0) = relCmpR r s := by
  induction s generalizing r with
  | nil =>
    simp only [List.nil_append]
    induction k generalizing r with
    | zero => simp
    | succ k ihk =>
      cases r with
      | nil =>
        rw [List.replicate_succ]
        simp only [relCmpR, ne_eq, not_true_eq_false, if_false]
        rw [ihk []]
        simp [relCmpR]
      | cons a as_ =>
        rw [List.replicate_succ]
        simp only [relCmpR]
        split
        · rfl
        · exact ihk as_
  | cons b bs ih =>
    cases r with
    | nil =>
      simp only [List.cons_append, relCmpR]
      split
      · rfl
      · exact ih []
    | cons a as_ =>
      simp only [List.cons_append, relCmpR]
      split
      · rfl
      · exact ih as_

theorem sortable_tuple_set_release (v : Version) (rs : List Nat) :
    sortable_tuple { v with release := rs } = sortable_tuple v := by
  rcases v with ⟨e, r, pre, post, dev, loc⟩
  rcases pre with _ | ⟨k, n⟩
  · cases post <;> cases dev <;> rfl
  · cases k <;> rfl

theorem cmp_append_zeros_left (v w : Version) (k : Nat) :
    Version.cmp { v with release := v.release ++ List.replicate k 0 } w = Version.cmp v w := by
  have hrel : compare_release (v.release ++ List.replicate k 0) w.release
      = compare_release v.release w.release := by
    rw [compare_release_eq_relCmpR, compare_release_eq_relCmpR, relCmpR_append_zeros_left]
  simp only [Version.cmp, hrel, sortable_tuple_set_release]

theorem cmp_append_zeros_right (v w : Version) (k : Nat) :
    Version.cmp w { v with release := v.release ++ List.replicate k 0 } = Version.cmp w v := by
  have hrel : compare_release w.release (v.release ++ List.replicate k 0)
      = compare_release w.release v.release := by
    rw [compare_release_eq_relCmpR, compare_release_eq_relCmpR, relCmpR_append_zeros_right]
  simp only [Version.cmp, hrel, sortable_tuple_set_release]

/-- C1: the 14 documented chain versions all parse, and under `Version.cmp`
every earlier element of the chain is strictly less than every later one. -/
theorem chain_strictly_increasing :
    (chain_strings.filterMap Version.from_str).length = 14
    ∧ (chain_strings.filterMap Version.from_str).Pairwise
        (fun a b => Version.cmp a b = Ordering.lt) := by
  constructor
  · decide
  · decide

/-- C8: `compare_release` equals pairwise comparison after zero-padding the
shorter release to the longer one's length; `1.1.0` and `1.1` compare equal;
and appending zero components to a release never changes how a version
compares with any other version (in either direction). -/
theorem release_zero_padding :
    (∀ r s : List Nat, compare_release r s = padded_release_compare r s)
    ∧ ((Version.from_str "1.1.0".data).bind
        (fun a => (Version.from_str "1.1".data).map (fun b => Version.cmp a b))
        = some Ordering.eq)
    ∧ (∀ (v w : Version) (k : Nat),
        Version.cmp { v with release := v.release ++ List.replicate k 0 } w = Version.cmp v w
        ∧ Version.cmp w { v with release := v.release ++ List.replicate k 0 } = Version.cmp w v) := by
  refine ⟨?_, by decide, ?_⟩
  · intro r s
    rw [compare_release_eq_relCmpR, padded_release_compare_eq_relCmpR]
  · intro v w k
    exact ⟨cmp_append_zeros_left v w k, cmp_append_zeros_right v w k⟩

theorem op_forbids_local_iff (o : Operator) :
    op_forbids_local o = true ↔
      o ∈ [Operator.GreaterThan, Operator.GreaterThanEqual, Operator.LessThan,
           Operator.LessThanEqual, Operator.TildeEqual, Operator.EqualStar,
           Operator.NotEqualStar] := by
  cases o <;> decide

/-- C9: `VersionSpecifier.new` fails exactly when the version carries a local
component and the operator is one of `> >= < <= ~= ==* !=*` (with an error
naming the operator and the local text), or when the operator is `~=` and the
release has fewer than two components; otherwise it stores the pair
unchanged. -/
theorem specifier_construction_invariants :
    ∀ (o : Operator) (v : Version),
      ((VersionSpecifier.new o v).isOk = true ↔
        ¬((v.«local» ≠ none ∧
            o ∈ [Operator.GreaterThan, Operator.GreaterThanEqual, Operator.LessThan,
                 Operator.LessThanEqual, Operator.TildeEqual, Operator.EqualStar,
                 Operator.NotEqualStar])
          ∨ (o = Operator.TildeEqual ∧ v.release.length < 2)))
      ∧ (∀ l, v.«local» = some l →
          o ∈ [Operator.GreaterThan, Operator.GreaterThanEqual, Operator.LessThan,
               Operator.LessThanEqual, Operator.TildeEqual, Operator.EqualStar,
               Operator.NotEqualStar] →
          VersionSpecifier.new o v = Except.error (mix_local_error o l))
      ∧ (∀ s, VersionSpecifier.new o v = Except.ok s →
          s.operator = o ∧ s.version = v) := by
  intro o v
  refine ⟨?_, ?_, ?_⟩
  · rcases hl : v.«local» with _ | l
    · simp only [VersionSpecifier.new, hl]
      by_cases h2 : o = Operator.TildeEqual ∧ v.release.length < 2
      · simp [h2, Except.isOk, Except.toBool]
      · simp [h2, Except.isOk, Except.toBool]
    · simp only [VersionSpecifier.new, hl]
      by_cases hb : op_forbids_local o = true
      · simp [hb, Except.isOk, Except.toBool, (op_forbids_local_iff o).mp hb]
      · have hnb : o ∉ [Operator.GreaterThan, Operator.GreaterThanEqual, Operator.LessThan,
            Operator.LessThanEqual, Operator.TildeEqual, Operator.EqualStar,
            Operator.NotEqualStar] := fun hm => hb ((op_forbids_local_iff o).mpr hm)
        by_cases h2 : o = Operator.TildeEqual ∧ v.release.length < 2
        · exact absurd (show op_forbids_local o = true by rw [h2.1]; rfl) hb
        · simp [h2, hb, Except.isOk, Except.toBool, hnb]
  · intro l hl hm
    have hb : op_forbids_local o = true := (op_forbids_local_iff o).mpr hm
    simp [VersionSpecifier.new, hl, hb]
  · intro s hs
    rcases hl : v.«local» with _ | l <;> simp only [VersionSpecifier.new, hl] at hs
    · split at hs
      · exact absurd hs (by simp)
      · cases hs
        exact ⟨rfl, rfl⟩
    · split at hs
      · exact absurd hs (by simp)
      · split at hs
        · exact absurd hs (by simp)
        · cases hs
          exact ⟨rfl, rfl⟩

theorem specifier_construction_invariants_witness :
    VersionSpecifier.new Operator.GreaterThan
        ⟨0, [1, 0], none, none, none, some [LocalSegment.String ['a', 'b', 'c']]⟩
      = Except.error (mix_local_error Operator.GreaterThan [LocalSegment.String ['a', 'b', 'c']])
    ∧ (VersionSpecifier.new Operator.TildeEqual ⟨0, [1], none, none, none, none⟩).isOk = false
    ∧ ∀ s, VersionSpecifier.new Operator.Equal ⟨0, [1], none, none, none, none⟩ = Except.ok s →
        s.operator = Operator.Equal ∧ s.version = ⟨0, [1], none, none, none, none⟩ := by
  refine ⟨?_, ?_, ?_⟩
  · exact (specifier_construction_invariants Operator.GreaterThan
      ⟨0, [1, 0], none, none, none, some [LocalSegment.String ['a', 'b', 'c']]⟩).2.1
      [LocalSegment.String ['a', 'b', 'c']] rfl (by decide)
  · have h := (specifier_construction_invariants Operator.TildeEqual
      ⟨0, [1], none, none, none, none⟩).1
    simp only [show (⟨0, [1], none, none, none, none⟩ : Version).«local» = none from rfl] at h
    rcases hv : (VersionSpecifier.new Operator.TildeEqual
        ⟨0, [1], none, none, none, none⟩).isOk with _ | _
    · rfl
    · exact absurd (h.mp hv) (by decide)
  · exact fun s hs => (specifier_construction_invariants Operator.Equal
      ⟨0, [1], none, none, none, none⟩).2.2 s hs

@[simp] theorem without_local_epoch (v : Version) : v.without_local.epoch = v.epoch := rfl

@[simp] theorem without_local_release (v : Version) : v.without_local.release = v.release := rfl

@[simp] theorem without_local_pre (v : Version) : v.without_local.pre = v.pre := rfl

@[simp] theorem without_local_post (v : Version) : v.without_local.post = v.post := rfl

@[simp] theorem without_local_dev (v : Version) : v.without_local.dev = v.dev := rfl

@[simp] theorem without_local_local (v : Version) : v.without_local.«local» = none := rfl

@[simp] theorem without_local_is_pre (v : Version) : v.without_local.is_pre = v.is_pre := rfl

@[simp] theorem without_local_is_post (v : Version) : v.without_local.is_post = v.is_post := rfl

@[simp] theorem without_local_is_local (v : Version) : v.without_local.is_local = false := rfl

@[simp] theorem without_local_any_prerelease (v : Version) :
    v.without_local.any_prerelease = v.any_prerelease := rfl

theorem without_local_eq_self {v : Version} (hl : v.«local» = none) : v.without_local = v := by
  rcases v with ⟨e, r, p, po, d, lo⟩
  simp only [Version.without_local]
  simp_all

theorem zipAllEq_iff (a b : List Nat) :
    zipAllEq a b = true ↔
      ∀ i (h1 : i < a.length) (h2 : i < b.length), a.get ⟨i, h1⟩ = b.get ⟨i, h2⟩ := by
  induction a generalizing b with
  | nil => simp [zipAllEq]
  | cons x xs ih =>
    cases b with
    | nil => simp [zipAllEq]
    | cons y ys =>
      simp only [zipAllEq, List.zip_cons_cons, List.all_cons, Bool.and_eq_true, beq_iff_eq]
      rw [show (xs.zip ys).all (fun p => p.1 == p.2) = zipAllEq xs ys from rfl, ih]
      constructor
      · rintro ⟨hxy, hrest⟩ i h1 h2
        cases i with
        | zero => exact hxy
        | succ n => exact hrest n (Nat.lt_of_succ_lt_succ h1) (Nat.lt_of_succ_lt_succ h2)
      · intro h
        refine ⟨h 0 (Nat.succ_pos _) (Nat.succ_pos _), fun i h1 h2 => ?_⟩
        exact h (i + 1) (Nat.succ_lt_succ h1) (Nat.succ_lt_succ h2)

theorem isOk_new_local_none {o : Operator} {v : Version}
    (hop : op_forbids_local o = true)
    (h : (VersionSpecifier.new o v).isOk = true) : v.«local» = none := by
  rcases hl : v.«local» with _ | l
  · rfl
  · rw [VersionSpecifier.new] at h
    rw [hl] at h
    simp [hop, Except.isOk, Except.toBool] at h

theorem epoch_lt_cmp {a b : Version} (h : a.epoch < b.epoch) : a.cmp b = Ordering.lt := by
  rw [Version.cmp, if_pos (Nat.ne_of_lt h)]
  exact Nat.compare_eq_lt.mpr h

theorem epoch_gt_cmp {a b : Version} (h : b.epoch < a.epoch) : a.cmp b = Ordering.gt := by
  rw [Version.cmp, if_pos (Nat.ne_of_gt h)]
  exact Nat.compare_eq_gt.mpr h

theorem ordering_beq_iff (o p : Ordering) : (o == p) = true ↔ o = p := by
  cases o <;> cases p <;> decide

theorem gt_imp_ge {a b : Version} (h : a.gt b = true) : a.ge b = true := by
  have h' : a.cmp b = Ordering.gt := (ordering_beq_iff _ _).mp h
  rw [Version.ge, h']
  rfl

theorem lt_imp_le {a b : Version} (h : a.lt b = true) : a.le b = true := by
  have h' : a.cmp b = Ordering.lt := (ordering_beq_iff _ _).mp h
  rw [Version.le, h']
  rfl

theorem less_than_imp_lt {this other : Version}
    (h : VersionSpecifier.less_than this other = true) : other.lt this = true := by
  rw [VersionSpecifier.less_than] at h
  split at h
  · rw [Version.lt, epoch_lt_cmp (a := other) (b := this) (by assumption)]
    rfl
  · split at h
    · exact absurd h (by simp)
    · exact h

theorem greater_than_imp_gt {this other : Version}
    (h : VersionSpecifier.greater_than this other = true) : other.gt this = true := by
  rw [VersionSpecifier.greater_than] at h
  split at h
  · rw [Version.gt, epoch_gt_cmp (a := other) (b := this) (by assumption)]
    rfl
  · split at h
    · exact absurd h (by simp)
    · split at h
      · exact absurd h (by simp)
      · exact h

/-- C6: for a well-formed `== V.*` specifier, containment holds exactly when
the epochs agree and the explicit release components of the specifier agree
with the candidate's corresponding components wherever both exist (so a
shorter specifier release is a prefix match), all pre/post/dev/local suffix
information on the candidate being ignored; in particular `==1.1.*` admits
`1.1.post1` and rejects `1.2`. -/
theorem equal_star_containment :
    (∀ (V C : Version), (VersionSpecifier.new Operator.EqualStar V).isOk = true →
      (VersionSpecifier.contains ⟨Operator.EqualStar, V⟩ C = true ↔
        (V.epoch = C.epoch ∧
          ∀ i (h1 : i < V.release.length) (h2 : i < C.release.length),
            V.release.get ⟨i, h1⟩ = C.release.get ⟨i, h2⟩)))
    ∧ VersionSpecifier.contains ⟨Operator.EqualStar, ⟨0, [1, 1], none, none, none, none⟩⟩
        ⟨0, [1, 1], none, some 1, none, none⟩ = true
    ∧ VersionSpecifier.contains ⟨Operator.EqualStar, ⟨0, [1, 1], none, none, none, none⟩⟩
        ⟨0, [1, 2], none, none, none, none⟩ = false := by
  refine ⟨?_, by decide, by decide⟩
  intro V C hwf
  have hl : V.«local» = none :=
    isOk_new_local_none (o := Operator.EqualStar) (by decide) hwf
  rw [VersionSpecifier.contains]
  simp only [hl, Option.isSome_none, Bool.false_eq_true, if_false, without_local_epoch,
    without_local_release, Bool.and_eq_true, beq_iff_eq, zipAllEq_iff]

theorem equal_star_containment_witness :
    VersionSpecifier.contains ⟨Operator.EqualStar, ⟨0, [2], none, none, none, none⟩⟩
      ⟨0, [2, 0], none, none, some 1, none⟩ = true := by
  refine (equal_star_containment.1 _ _ (by decide)).mpr ⟨rfl, ?_⟩
  intro i h1 h2
  have hi : i = 0 := by
    simp only [List.length_singleton] at h1
    omega
  subst hi
  rfl

/-- C7: a well-formed `~= V` specifier never matches a candidate with an epoch
different from `V`'s; within the same epoch it matches normally:
`~=2!1.0` contains `2!1.0`, while `~=1.0` does not contain `2!1.0` even though
`2!1.0` is greater than `1.0` under the full ordering. -/
theorem tilde_equal_epoch_isolation :
    (∀ (V C : Version), (VersionSpecifier.new Operator.TildeEqual V).isOk = true →
      C.epoch ≠ V.epoch →
      VersionSpecifier.contains ⟨Operator.TildeEqual, V⟩ C = false)
    ∧ VersionSpecifier.contains ⟨Operator.TildeEqual, ⟨2, [1, 0], none, none, none, none⟩⟩
        ⟨2, [1, 0], none, none, none, none⟩ = true
    ∧ VersionSpecifier.contains ⟨Operator.TildeEqual, ⟨0, [1, 0], none, none, none, none⟩⟩
        ⟨2, [1, 0], none, none, none, none⟩ = false
    ∧ Version.cmp ⟨2, [1, 0], none, none, none, none⟩ ⟨0, [1, 0], none, none, none, none⟩
        = Ordering.gt := by
  refine ⟨?_, by decide, by decide, by decide⟩
  intro V C hwf hep
  have hl : V.«local» = none :=
    isOk_new_local_none (o := Operator.TildeEqual) (by decide) hwf
  rw [VersionSpecifier.contains]
  simp only [hl, Option.isSome_none, Bool.false_eq_true, if_false, without_local_epoch,
    without_local_release]
  rw [if_pos (fun h => hep h.symm)]

theorem tilde_equal_epoch_isolation_witness :
    VersionSpecifier.contains ⟨Operator.TildeEqual, ⟨0, [1, 0], none, none, none, none⟩⟩
      ⟨1, [1, 0], none, none, none, none⟩ = false :=
  tilde_equal_epoch_isolation.1 _ _ (by decide) (by decide)

/-- C10: the inclusive operators apply no pre/post exclusion rules: for a
well-formed `>= V` specifier, containment is exactly `C >= V` under the full
ordering after local-stripping, and for `<= V` exactly `C <= V`; in
particular `>=2` admits `2.0.post1` although `>2` rejects it, and `<=2`
admits `2.0.dev1` although `<2` rejects it. -/
theorem inclusive_operators_pure_order :
    (∀ (V C : Version), V.«local» = none →
      VersionSpecifier.contains ⟨Operator.GreaterThanEqual, V⟩ C = C.without_local.ge V
      ∧ VersionSpecifier.contains ⟨Operator.LessThanEqual, V⟩ C = C.without_local.le V)
    ∧ VersionSpecifier.contains ⟨Operator.GreaterThanEqual, ⟨0, [2], none, none, none, none⟩⟩
        ⟨0, [2, 0], none, some 1, none, none⟩ = true
    ∧ VersionSpecifier.contains ⟨Operator.GreaterThan, ⟨0, [2], none, none, none, none⟩⟩
        ⟨0, [2, 0], none, some 1, none, none⟩ = false
    ∧ VersionSpecifier.contains ⟨Operator.LessThanEqual, ⟨0, [2], none, none, none, none⟩⟩
        ⟨0, [2, 0], none, none, some 1, none⟩ = true
    ∧ VersionSpecifier.contains ⟨Operator.LessThan, ⟨0, [2], none, none, none, none⟩⟩
        ⟨0, [2, 0], none, none, some 1, none⟩ = false := by
  refine ⟨?_, by decide, by decide, by decide, by decide⟩
  intro V C hl
  have hV : V.without_local = V := without_local_eq_self hl
  constructor
  · rw [VersionSpecifier.contains]
    simp only [hl, Option.isSome_none, Bool.false_eq_true, if_false, hV]
    cases hgt : VersionSpecifier.greater_than V C.without_local
    · simp
    · simp only [Bool.true_or]
      exact (gt_imp_ge (greater_than_imp_gt hgt)).symm
  · rw [VersionSpecifier.contains]
    simp only [hl, Option.isSome_none, Bool.false_eq_true, if_false, hV]
    cases hlt : VersionSpecifier.less_than V C.without_local
    · simp
    · simp only [Bool.true_or]
      exact (lt_imp_le (less_than_imp_lt hlt)).symm

theorem inclusive_operators_pure_order_witness :
    VersionSpecifier.contains ⟨Operator.GreaterThanEqual, ⟨0, [3], none, none, none, none⟩⟩
      ⟨0, [3, 0], none, some 2, none, some [LocalSegment.String ['x']]⟩ = true := by
  rw [(inclusive_operators_pure_order.1 ⟨0, [3], none, none, none, none⟩
    ⟨0, [3, 0], none, some 2, none, some [LocalSegment.String ['x']]⟩ rfl).1]
  decide

/-- C4: for a well-formed `> V` specifier and candidate `C` (stripped of its
local component), containment holds exactly when `C`'s epoch exceeds `V`'s,
or the release-equality exclusions (post-release candidate against a
non-post bound, candidate with local component) do not apply and `C > V`
under the full ordering. -/
theorem greater_than_containment :
    ∀ (V C : Version), V.«local» = none →
      (VersionSpecifier.contains ⟨Operator.GreaterThan, V⟩ C = true ↔
        (V.epoch < C.without_local.epoch ∨
          (¬(compare_release V.release C.without_local.release = Ordering.eq ∧
              ((V.is_post = false ∧ C.without_local.is_post = true)
                ∨ C.without_local.is_local = true))
            ∧ C.without_local.cmp V = Ordering.gt))) := by
  intro V C hl
  have hV : V.without_local = V := without_local_eq_self hl
  rw [VersionSpecifier.contains]
  simp only [hl, Option.isSome_none, Bool.false_eq_true, if_false, hV]
  rw [VersionSpecifier.greater_than]
  split_ifs with h1 h2 h3
  · simp only [true_iff]
    exact Or.inl h1
  · simp only [Bool.false_eq_true, false_iff]
    simp only [Bool.and_eq_true, ordering_beq_iff, Bool.not_eq_true'] at h2
    rintro (hepoch | ⟨hnot, _⟩)
    · exact h1 hepoch
    · exact hnot ⟨h2.1.1, Or.inl ⟨h2.1.2, h2.2⟩⟩
  · simp only [Bool.and_eq_true, without_local_is_local] at h3
    exact absurd h3.2 (by simp)
  · constructor
    · intro hgt
      refine Or.inr ⟨?_, (ordering_beq_iff _ _).mp hgt⟩
      rintro ⟨hrel, ⟨hvp, hcp⟩ | hcl⟩
      · exact h2 (by
          rw [without_local_release] at hrel
          simp [hrel, hvp, hcp, ordering_beq_iff])
      · rw [without_local_is_local] at hcl
        exact absurd hcl (by simp)
    · rintro (hepoch | ⟨_, hgt⟩)
      · exact absurd hepoch h1
      · rw [Version.gt, hgt]
        rfl

theorem greater_than_containment_witness :
    VersionSpecifier.contains ⟨Operator.GreaterThan, ⟨0, [2, 0], none, none, none, none⟩⟩
      ⟨0, [2, 0], none, some 1, none, none⟩ = false := by
  have h := greater_than_containment ⟨0, [2, 0], none, none, none, none⟩
      ⟨0, [2, 0], none, some 1, none, none⟩ rfl
  cases hc : VersionSpecifier.contains ⟨Operator.GreaterThan, ⟨0, [2, 0], none, none, none, none⟩⟩
      ⟨0, [2, 0], none, some 1, none, none⟩
  · rfl
  · exfalso
    have hr := h.mp hc
    revert hr
    decide

/-- C3 (divergence witness): the well-formed specifier `<1.0a2` does **not**
contain the candidate `1.0a1`, although the candidate is strictly below the
bound, the release portions compare equal, and the bound itself *is* a
pre-release — the `contains` arm for `LessThan` excludes every pre-release
candidate at an equal release, regardless of the bound, contradicting the
claimed (and comment-documented) exception for pre/dev bounds. -/
theorem less_than_prerelease_bound_divergence :
    Version.from_str "1.0a2".data
      = some ⟨0, [1, 0], some (PreRelease.Alpha, 2), none, none, none⟩
    ∧ Version.from_str "1.0a1".data
      = some ⟨0, [1, 0], some (PreRelease.Alpha, 1), none, none, none⟩
    ∧ (VersionSpecifier.new Operator.LessThan
        ⟨0, [1, 0], some (PreRelease.Alpha, 2), none, none, none⟩).isOk = true
    ∧ Version.lt ⟨0, [1, 0], some (PreRelease.Alpha, 1), none, none, none⟩
        ⟨0, [1, 0], some (PreRelease.Alpha, 2), none, none, none⟩ = true
    ∧ compare_release [1, 0] [1, 0] = Ordering.eq
    ∧ Version.any_prerelease ⟨0, [1, 0], some (PreRelease.Alpha, 2), none, none, none⟩ = true
    ∧ VersionSpecifier.contains
        ⟨Operator.LessThan, ⟨0, [1, 0], some (PreRelease.Alpha, 2), none, none, none⟩⟩
        ⟨0, [1, 0], some (PreRelease.Alpha, 1), none, none, none⟩ = false := by
  refine ⟨by decide, by decide, by decide, by decide, by decide, by decide, by decide⟩

/-- C5 (counterexample): the version text written in a `===v1.0` specifier is
not retained — the stored version is the parse of `v1.0`, and `contains`
accepts the candidate `1.0` even though the candidate's canonical display
`1.0` differs from the literal text `v1.0`; the claim's byte-for-byte
comparison against the literal specifier text would reject it. -/
theorem exact_equal_literal_text_counterexample :
    Version.from_str "v1.0".data = some ⟨0, [1, 0], none, none, none, none⟩
    ∧ VersionSpecifier.contains ⟨Operator.ExactEqual, ⟨0, [1, 0], none, none, none, none⟩⟩
        ⟨0, [1, 0], none, none, none, none⟩ = true
    ∧ Version.to_text ⟨0, [1, 0], none, none, none, none⟩ ≠ "v1.0".data := by
  refine ⟨by decide, by decide, by decide⟩

/-- C5 (amended): `===` containment compares the canonical display of the
specifier's *parsed* version with the canonical display of the candidate
(local suffix included, no local-stripping); the literal spelling of the
specifier text is not retained, e.g. `1.0.00` is stored as `1.0.0`. -/
theorem exact_equal_display_equality :
    (∀ (v c : Version),
      VersionSpecifier.contains ⟨Operator.ExactEqual, v⟩ c = (v.to_text == c.to_text))
    ∧ Version.from_str "1.0.00".data = some ⟨0, [1, 0, 0], none, none, none, none⟩
    ∧ Version.to_text ⟨0, [1, 0, 0], none, none, none, none⟩ = "1.0.0".data := by
  refine ⟨?_, by decide, by decide⟩
  intro v c
  rw [VersionSpecifier.contains]

/-! ### Character-class lemmas -/

theorem isDigit_toNat {c : Char} (h : c.isDigit = true) : 48 ≤ c.toNat ∧ c.toNat ≤ 57 := by
  simp only [Char.isDigit, Bool.and_eq_true, decide_eq_true_eq] at h
  exact ⟨h.1, h.2⟩

theorem isLower_toNat {c : Char} (h : c.isLower = true) : 97 ≤ c.toNat ∧ c.toNat ≤ 122 := by
  simp only [Char.isLower, Bool.and_eq_true, decide_eq_true_eq] at h
  exact ⟨h.1, h.2⟩

theorem digit_not_space {c : Char} (h : c.isDigit = true) : isSpaceChar c = false := by
  have := isDigit_toNat h
  simp only [isSpaceChar, Bool.or_eq_false_iff, Bool.and_eq_false_iff, decide_eq_false_iff_not]
  omega

theorem lowerChar_digit {c : Char} (h : c.isDigit = true) : lowerChar c = c := by
  have := isDigit_toNat h
  rw [lowerChar, if_neg]
  intro hc
  have h65 : 65 ≤ c.toNat := hc.1
  omega

theorem lowerChar_lower {c : Char} (h : c.isLower = true) : lowerChar c = c := by
  have := isLower_toNat h
  rw [lowerChar, if_neg]
  intro hc
  have h90 : c.toNat ≤ 90 := hc.2
  omega

theorem char_toNat_eq {c d : Char} (h : c.toNat = d.toNat) : c = d :=
  Char.ext (UInt32.ext h)

theorem digit_ne_of_not_digit {c k : Char} (hc : c.isDigit = true) (hk : k.isDigit = false) :
    ¬(c = k) := by
  intro he
  rw [he] at hc
  rw [hc] at hk
  cases hk

theorem lowerChar_digit_ne {c k : Char} (hc : c.isDigit = true) (hk : k.isDigit = false) :
    ¬(lowerChar c = k) := by
  rw [lowerChar_digit hc]
  exact digit_ne_of_not_digit hc hk

theorem digit_not_sep {c : Char} (h : c.isDigit = true) : isSepChar c = false := by
  have := isDigit_toNat h
  simp only [isSepChar, Bool.or_eq_false_iff, decide_eq_false_iff_not]
  refine ⟨⟨fun he => ?_, fun he => ?_⟩, fun he => ?_⟩ <;>
    · rw [he] at this
      revert this
      decide

theorem digit_isAlphanum {c : Char} (h : c.isDigit = true) : c.isAlphanum = true := by
  simp [Char.isAlphanum, h]

theorem lower_isAlphanum {c : Char} (h : c.isLower = true) : c.isAlphanum = true := by
  simp [Char.isAlphanum, Char.isAlpha, h]

/-! ### Decimal digit printing/parsing lemmas -/

theorem digitChar_toNat {d : Nat} (h : d < 10) : (digitChar d).toNat = 48 + d := by
  interval_cases d <;> decide

theorem digitChar_isDigit {d : Nat} (h : d < 10) : (digitChar d).isDigit = true := by
  interval_cases d <;> decide

theorem digitsToNat_append_one (a : List Char) (c : Char) :
    digitsToNat (a ++ [c]) = 10 * digitsToNat a + (c.toNat - 48) := by
  simp [digitsToNat, List.foldl_append]

theorem natDigitsAux_spec :
    ∀ fuel n, n < fuel →
      digitsToNat (natDigitsAux fuel n) = n
      ∧ natDigitsAux fuel n ≠ []
      ∧ (natDigitsAux fuel n).all Char.isDigit = true := by
  intro fuel
  induction fuel with
  | zero => intro n h; omega
  | succ f ih =>
    intro n h
    by_cases h10 : n < 10
    · refine ⟨?_, ?_, ?_⟩ <;> simp [natDigitsAux, h10, digitsToNat, digitChar_toNat h10,
        digitChar_isDigit h10]
    · have hdiv : n / 10 < f := by omega
      obtain ⟨ih1, ih2, ih3⟩ := ih (n / 10) hdiv
      refine ⟨?_, ?_, ?_⟩
      · rw [natDigitsAux, if_neg h10, digitsToNat_append_one, ih1,
          digitChar_toNat (Nat.mod_lt _ (by omega))]
        omega
      · rw [natDigitsAux, if_neg h10]
        simp
      · rw [natDigitsAux, if_neg h10]
        simp only [List.all_append, Bool.and_eq_true, ih3, true_and, List.all_cons,
          List.all_nil, Bool.and_true]
        exact digitChar_isDigit (Nat.mod_lt _ (by omega))

theorem digitsToNat_natDigits (n : Nat) : digitsToNat (natDigits n) = n :=
  (natDigitsAux_spec (n + 1) n (Nat.lt_succ_self n)).1

theorem natDigits_ne_nil (n : Nat) : natDigits n ≠ [] :=
  (natDigitsAux_spec (n + 1) n (Nat.lt_succ_self n)).2.1

theorem natDigits_all_digit (n : Nat) : (natDigits n).all Char.isDigit = true :=
  (natDigitsAux_spec (n + 1) n (Nat.lt_succ_self n)).2.2

theorem parseNatSeg_natDigits (n : Nat) : parseNatSeg (natDigits n) = some n := by
  rw [parseNatSeg, if_pos]
  · rw [digitsToNat_natDigits]
  · simp only [natDigits_all_digit n, Bool.and_true, Bool.not_eq_true',
      List.isEmpty_eq_false.mpr (natDigits_ne_nil n)]

/-! ### Scanner lemmas -/

theorem spanP_append (p : Char → Bool) (d r : List Char) (hall : d.all p = true)
    (hr : ∀ c t, r = c :: t → p c = false) : spanP p (d ++ r) = (d, r) := by
  induction d with
  | nil =>
    cases r with
    | nil => rfl
    | cons c t => simp [spanP, hr c t rfl]
  | cons x xs ih =>
    simp only [List.all_cons, Bool.and_eq_true] at hall
    simp [spanP, hall.1, ih hall.2]

theorem spanP_all (p : Char → Bool) (cs : List Char) : (spanP p cs).1.all p = true := by
  induction cs with
  | nil => rfl
  | cons c t ih =>
    by_cases hc : p c = true
    · simp [spanP, hc, ih]
    · simp [spanP, hc]

theorem joinDot_cons (x : List Char) (xs : List (List Char)) :
    joinDot (x :: xs) = x ++ relText xs := by
  induction xs generalizing x with
  | nil => simp [joinDot, relText]
  | cons y ys ih =>
    show x ++ '.' :: joinDot (y :: ys) = x ++ relText (y :: ys)
    rw [ih y, relText]
    simp

theorem relAux_zero (cs : List Char) : relAux 0 cs = ([], cs) := rfl

theorem relAux_succ_nil (fuel : Nat) : relAux (fuel + 1) [] = ([], []) := rfl

theorem relAux_cons_dot (fuel : Nat) (rest : List Char) :
    relAux (fuel + 1) ('.' :: rest) =
      (match digitSpan rest with
       | ([], _) => ([], '.' :: rest)
       | (d :: ds, rest2) =>
         ((d :: ds) :: (relAux fuel rest2).1, (relAux fuel rest2).2)) := rfl

theorem relAux_cons_nondot (fuel : Nat) (c : Char) (rest : List Char) (hc : ¬c = '.') :
    relAux (fuel + 1) (c :: rest) = ([], c :: rest) := by
  rw [relAux]
  simp [hc]

theorem relAux_spec (segs : List (List Char)) (r : List Char) (fuel : Nat)
    (hsegs : ∀ s ∈ segs, s ≠ [] ∧ s.all Char.isDigit = true)
    (hr1 : ∀ c t, r = c :: t → c.isDigit = false)
    (hr2 : ∀ c t, r = '.' :: c :: t → c.isDigit = false)
    (hfuel : (relText segs).length + r.length ≤ fuel) :
    relAux fuel (relText segs ++ r) = (segs, r) := by
  induction segs generalizing fuel with
  | nil =>
    simp only [relText, List.nil_append]
    cases fuel with
    | zero => rfl
    | succ f =>
      cases hrr : r with
      | nil => rfl
      | cons c t =>
        by_cases hc : c = '.'
        · subst hc
          cases t with
          | nil => rfl
          | cons c2 t2 =>
            have hnd : c2.isDigit = false := hr2 c2 t2 hrr
            rw [relAux_cons_dot]
            simp [digitSpan, spanP, hnd]
        · exact relAux_cons_nondot f c t hc
  | cons s ss ih =>
    obtain ⟨hne, hdig⟩ := hsegs s (List.mem_cons_self s ss)
    obtain ⟨d, ds, hs⟩ : ∃ d ds, s = d :: ds := by
      cases s with
      | nil => exact absurd rfl hne
      | cons d ds => exact ⟨d, ds, rfl⟩
    have hbound : ∀ c t, relText ss ++ r = c :: t → c.isDigit = false := by
      cases ss with
      | nil => simpa [relText] using hr1
      | cons s2 ss2 =>
        intro c t hct
        simp only [relText, List.cons_append, List.cons.injEq] at hct
        rw [← hct.1]
        decide
    cases fuel with
    | zero =>
      exfalso
      simp only [relText, List.length_cons, List.length_append] at hfuel
      omega
    | succ f =>
      have hshape : relText (s :: ss) ++ r = '.' :: ((s ++ relText ss) ++ r) := by
        simp [relText]
      rw [hshape, relAux_cons_dot]
      have hspan : digitSpan ((s ++ relText ss) ++ r) = (s, relText ss ++ r) := by
        rw [List.append_assoc]
        exact spanP_append _ _ _ hdig hbound
      rw [hspan]
      have ihfuel : (relText ss).length + r.length ≤ f := by
        simp only [relText, List.length_cons, List.length_append] at hfuel
        omega
      have ihres := ih f (fun s2 hs2 => hsegs s2 (List.mem_cons_of_mem _ hs2)) ihfuel
      rw [hs]
      simp only []
      rw [ihres]

theorem localAux_zero (cs : List Char) : localAux 0 cs = ([], cs) := rfl

theorem localAux_succ_nil (fuel : Nat) : localAux (fuel + 1) [] = ([], []) := rfl

theorem localAux_cons_sep (fuel : Nat) (c : Char) (rest : List Char)
    (hc : isSepChar c = true) :
    localAux (fuel + 1) (c :: rest) =
      (match alnumSpan rest with
       | ([], _) => ([], c :: rest)
       | (d :: ds, rest2) =>
         ((d :: ds) :: (localAux fuel rest2).1, (localAux fuel rest2).2)) := by
  rw [localAux]
  simp [hc]

theorem localAux_cons_nonsep (fuel : Nat) (c : Char) (rest : List Char)
    (hc : isSepChar c = false) :
    localAux (fuel + 1) (c :: rest) = ([], c :: rest) := by
  rw [localAux]
  simp [hc]

theorem localAux_spec (ts : List (List Char)) (fuel : Nat)
    (hsegs : ∀ s ∈ ts, s ≠ [] ∧ s.all Char.isAlphanum = true)
    (hfuel : (relText ts).length ≤ fuel) :
    localAux fuel (relText ts) = (ts, []) := by
  induction ts generalizing fuel with
  | nil =>
    cases fuel with
    | zero => rfl
    | succ f => rfl
  | cons s ss ih =>
    obtain ⟨hne, haln⟩ := hsegs s (List.mem_cons_self s ss)
    obtain ⟨d, ds, hs⟩ : ∃ d ds, s = d :: ds := by
      cases s with
      | nil => exact absurd rfl hne
      | cons d ds => exact ⟨d, ds, rfl⟩
    have hbound : ∀ c t, relText ss = c :: t → c.isAlphanum = false := by
      cases ss with
      | nil => intro c t h; cases h
      | cons s2 ss2 =>
        intro c t hct
        simp only [relText, List.cons_append, List.cons.injEq] at hct
        rw [← hct.1]
        decide
    cases fuel with
    | zero =>
      exfalso
      simp only [relText, List.length_cons, List.length_append] at hfuel
      omega
    | succ f =>
      have hshape : relText (s :: ss) = '.' :: (s ++ relText ss) := by
        simp [relText]
      rw [hshape, localAux_cons_sep _ _ _ (by decide)]
      have hspan : alnumSpan (s ++ relText ss) = (s, relText ss) :=
        spanP_append _ _ _ haln hbound
      rw [hspan]
      have ihfuel : (relText ss).length ≤ f := by
        simp only [relText, List.length_cons, List.length_append] at hfuel
        omega
      have ihres := ih f (fun s2 hs2 => hsegs s2 (List.mem_cons_of_mem _ hs2)) ihfuel
      rw [hs]
      simp only []
      rw [ihres]

/-! ### Field-stage lemmas -/

theorem matchKw_nil (cs : List Char) : matchKw [] cs = some cs := rfl

theorem matchKw_cons_eq (k : Char) (ks : List Char) (c : Char) (cs : List Char)
    (h : lowerChar c = k) : matchKw (k :: ks) (c :: cs) = matchKw ks cs := by
  simp [matchKw, h]

theorem matchKw_cons_ne (k : Char) (ks : List Char) (c : Char) (cs : List Char)
    (h : ¬lowerChar c = k) : matchKw (k :: ks) (c :: cs) = none := by
  simp [matchKw, h]

/-- The tail of the canonical display after some optional component: empty, a
local part, a post part, or a dev part. -/
def TailShape (x : List Char) : Prop :=
  x = [] ∨ (∃ t, x = '+' :: t) ∨ (∃ t, x = '.' :: 'p' :: 'o' :: 's' :: 't' :: t)
    ∨ (∃ t, x = '.' :: 'd' :: 'e' :: 'v' :: t)

theorem tailShape_not_digit {x : List Char} (h : TailShape x) :
    ∀ c t, x = c :: t → c.isDigit = false := by
  rcases h with rfl | ⟨t0, rfl⟩ | ⟨t0, rfl⟩ | ⟨t0, rfl⟩ <;> intro c t he <;>
    cases he <;> decide

theorem tailShape_dot_second {x : List Char} (h : TailShape x) :
    ∀ c t, x = '.' :: c :: t → c.isDigit = false := by
  rcases h with rfl | ⟨t0, rfl⟩ | ⟨t0, rfl⟩ | ⟨t0, rfl⟩ <;> intro c t he <;>
    cases he <;> decide

theorem tailShape_not_bang_star {x : List Char} (h : TailShape x) :
    ∀ c t, x = c :: t → ¬c = '!' ∧ ¬c = '*' := by
  rcases h with rfl | ⟨t0, rfl⟩ | ⟨t0, rfl⟩ | ⟨t0, rfl⟩ <;> intro c t he <;>
    cases he <;> decide

theorem parsePreField_skip {x : List Char} (h : TailShape x) :
    parsePreField x = (none, x) := by
  rcases h with rfl | ⟨t0, rfl⟩ | ⟨t0, rfl⟩ | ⟨t0, rfl⟩ <;> rfl

theorem parsePostField_skip {x : List Char}
    (h : x = [] ∨ (∃ t, x = '+' :: t) ∨ (∃ t, x = '.' :: 'd' :: 'e' :: 'v' :: t)) :
    parsePostField x = (none, x) := by
  rcases h with rfl | ⟨t0, rfl⟩ | ⟨t0, rfl⟩ <;> rfl

theorem parseDevField_skip {x : List Char}
    (h : x = [] ∨ (∃ t, x = '+' :: t)) :
    parseDevField x = (none, x) := by
  rcases h with rfl | ⟨t0, rfl⟩ <;> rfl

theorem parseLocal_nil : parseLocal [] = (none, []) := rfl

theorem parseStar_nil : parseStar [] = (false, []) := rfl

theorem natDigits_head_digit (n : Nat) :
    ∃ d ds, natDigits n = d :: ds ∧ d.isDigit = true := by
  rcases hnd : natDigits n with _ | ⟨d, ds⟩
  · exact absurd hnd (natDigits_ne_nil n)
  · refine ⟨d, ds, rfl, ?_⟩
    have := natDigits_all_digit n
    rw [hnd] at this
    simp only [List.all_cons, Bool.and_eq_true] at this
    exact this.1

theorem digitSpan_canonical (n : Nat) (r : List Char)
    (hr : ∀ c t, r = c :: t → c.isDigit = false) :
    digitSpan (natDigits n ++ r) = (natDigits n, r) :=
  spanP_append _ _ _ (natDigits_all_digit n) hr

theorem stripSep_digits (n : Nat) (r : List Char) :
    stripSep (natDigits n ++ r) = natDigits n ++ r := by
  obtain ⟨d, ds, hnd, hd⟩ := natDigits_head_digit n
  rw [hnd]
  simp [stripSep, digit_not_sep hd]

theorem parsePreField_canonical (k : PreRelease) (n : Nat) (r : List Char)
    (hr : ∀ c t, r = c :: t → c.isDigit = false) :
    parsePreField (k.to_text ++ (natDigits n ++ r))
      = (some (k.to_text, some (natDigits n)), r) := by
  obtain ⟨d, ds, hnd, hd⟩ := natDigits_head_digit n
  have hspan := digitSpan_canonical n r hr
  have hstrip := stripSep_digits n r
  have hcons : natDigits n ++ r = d :: (ds ++ r) := by rw [hnd]; rfl
  cases k
  · -- Alpha: `a` matches; `alpha` fails at its second letter against the
    -- leading digit of the pre number, the other names fail on the head.
    have hpv : matchKw ['p', 'r', 'e', 'v', 'i', 'e', 'w'] ('a' :: (natDigits n ++ r)) = none :=
      matchKw_cons_ne _ _ _ _ (by decide)
    have hal : matchKw ['a', 'l', 'p', 'h', 'a'] ('a' :: (natDigits n ++ r)) = none := by
      rw [matchKw_cons_eq _ _ _ _ (by decide), hcons]
      exact matchKw_cons_ne _ _ _ _ (lowerChar_digit_ne hd (by decide))
    have hbe : matchKw ['b', 'e', 't', 'a'] ('a' :: (natDigits n ++ r)) = none :=
      matchKw_cons_ne _ _ _ _ (by decide)
    have hpr : matchKw ['p', 'r', 'e'] ('a' :: (natDigits n ++ r)) = none :=
      matchKw_cons_ne _ _ _ _ (by decide)
    have hrc : matchKw ['r', 'c'] ('a' :: (natDigits n ++ r)) = none :=
      matchKw_cons_ne _ _ _ _ (by decide)
    have ha : matchKw ['a'] ('a' :: (natDigits n ++ r)) = some (natDigits n ++ r) := by
      rw [matchKw_cons_eq _ _ _ _ (by decide)]
      rfl
    have hstripA : stripSep ('a' :: (natDigits n ++ r)) = 'a' :: (natDigits n ++ r) := by
      simp [stripSep, isSepChar]
    show parsePreField ('a' :: (natDigits n ++ r)) = _
    rw [parsePreField]
    simp only [hstripA, preNames, matchFirstKw, hpv, hal, hbe, hpr, hrc, ha, hstrip, hspan]
    simp only [hnd]
    rfl
  · -- Beta
    have hpv : matchKw ['p', 'r', 'e', 'v', 'i', 'e', 'w'] ('b' :: (natDigits n ++ r)) = none :=
      matchKw_cons_ne _ _ _ _ (by decide)
    have hal : matchKw ['a', 'l', 'p', 'h', 'a'] ('b' :: (natDigits n ++ r)) = none :=
      matchKw_cons_ne _ _ _ _ (by decide)
    have hbe : matchKw ['b', 'e', 't', 'a'] ('b' :: (natDigits n ++ r)) = none := by
      rw [matchKw_cons_eq _ _ _ _ (by decide), hcons]
      exact matchKw_cons_ne _ _ _ _ (lowerChar_digit_ne hd (by decide))
    have hpr : matchKw ['p', 'r', 'e'] ('b' :: (natDigits n ++ r)) = none :=
      matchKw_cons_ne _ _ _ _ (by decide)
    have hrc : matchKw ['r', 'c'] ('b' :: (natDigits n ++ r)) = none :=
      matchKw_cons_ne _ _ _ _ (by decide)
    have ha : matchKw ['a'] ('b' :: (natDigits n ++ r)) = none :=
      matchKw_cons_ne _ _ _ _ (by decide)
    have hb : matchKw ['b'] ('b' :: (natDigits n ++ r)) = some (natDigits n ++ r) := by
      rw [matchKw_cons_eq _ _ _ _ (by decide)]
      rfl
    have hstripB : stripSep ('b' :: (natDigits n ++ r)) = 'b' :: (natDigits n ++ r) := by
      simp [stripSep, isSepChar]
    show parsePreField ('b' :: (natDigits n ++ r)) = _
    rw [parsePreField]
    simp only [hstripB, preNames, matchFirstKw, hpv, hal, hbe, hpr, hrc, ha, hb, hstrip, hspan]
    simp only [hnd]
    rfl
  · -- Rc: `rc` matches directly, earlier names fail on the leading `r`.
    have hpv : matchKw ['p', 'r', 'e', 'v', 'i', 'e', 'w'] ('r' :: 'c' :: (natDigits n ++ r)) = none :=
      matchKw_cons_ne _ _ _ _ (by decide)
    have hal : matchKw ['a', 'l', 'p', 'h', 'a'] ('r' :: 'c' :: (natDigits n ++ r)) = none :=
      matchKw_cons_ne _ _ _ _ (by decide)
    have hbe : matchKw ['b', 'e', 't', 'a'] ('r' :: 'c' :: (natDigits n ++ r)) = none :=
      matchKw_cons_ne _ _ _ _ (by decide)
    have hpr : matchKw ['p', 'r', 'e'] ('r' :: 'c' :: (natDigits n ++ r)) = none :=
      matchKw_cons_ne _ _ _ _ (by decide)
    have hrc : matchKw ['r', 'c'] ('r' :: 'c' :: (natDigits n ++ r)) = some (natDigits n ++ r) := by
      rw [matchKw_cons_eq _ _ _ _ (by decide), matchKw_cons_eq _ _ _ _ (by decide)]
      rfl
    have hstripR : stripSep ('r' :: 'c' :: (natDigits n ++ r))
        = 'r' :: 'c' :: (natDigits n ++ r) := by
      simp [stripSep, isSepChar]
    show parsePreField ('r' :: 'c' :: (natDigits n ++ r)) = _
    rw [parsePreField]
    simp only [hstripR, preNames, matchFirstKw, hpv, hal, hbe, hpr, hrc, hstrip, hspan]
    simp only [hnd]
    rfl

theorem parsePostField_canonical (n : Nat) (r : List Char)
    (hr : ∀ c t, r = c :: t → c.isDigit = false) :
    parsePostField ('.' :: 'p' :: 'o' :: 's' :: 't' :: (natDigits n ++ r))
      = (some (none, some (natDigits n)), r) := by
  obtain ⟨d, ds, hnd, hd⟩ := natDigits_head_digit n
  have hspan := digitSpan_canonical n r hr
  have hstrip := stripSep_digits n r
  have hentry : parsePostField ('.' :: 'p' :: 'o' :: 's' :: 't' :: (natDigits n ++ r))
      = parsePostKeyword ('.' :: 'p' :: 'o' :: 's' :: 't' :: (natDigits n ++ r)) := rfl
  have hkw : matchFirstKw postNames ('p' :: 'o' :: 's' :: 't' :: (natDigits n ++ r))
      = some (['p', 'o', 's', 't'], natDigits n ++ r) := rfl
  have hstripDot : stripSep ('.' :: 'p' :: 'o' :: 's' :: 't' :: (natDigits n ++ r))
      = 'p' :: 'o' :: 's' :: 't' :: (natDigits n ++ r) := rfl
  rw [hentry, parsePostKeyword]
  simp only [hstripDot, hkw, hstrip, hspan]
  simp only [hnd]

theorem parseDevField_canonical (n : Nat) (r : List Char)
    (hr : ∀ c t, r = c :: t → c.isDigit = false) :
    parseDevField ('.' :: 'd' :: 'e' :: 'v' :: (natDigits n ++ r))
      = (some (some (natDigits n)), r) := by
  obtain ⟨d, ds, hnd, hd⟩ := natDigits_head_digit n
  have hspan := digitSpan_canonical n r hr
  have hstrip := stripSep_digits n r
  have hkw : matchKw ['d', 'e', 'v'] (stripSep ('.' :: 'd' :: 'e' :: 'v' :: (natDigits n ++ r)))
      = some (natDigits n ++ r) := rfl
  rw [parseDevField]
  simp only [hkw, hstrip, hspan]
  simp only [hnd]

theorem parseLocal_canonical (s : List Char) (ts : List (List Char))
    (hsegs : ∀ x ∈ s :: ts, x ≠ [] ∧ x.all Char.isAlphanum = true) :
    parseLocal ('+' :: joinDot (s :: ts)) = (some (s :: ts), []) := by
  obtain ⟨hne, haln⟩ := hsegs s (List.mem_cons_self s ts)
  obtain ⟨d, ds, hs⟩ : ∃ d ds, s = d :: ds := by
    cases s with
    | nil => exact absurd rfl hne
    | cons d ds => exact ⟨d, ds, rfl⟩
  have hbound : ∀ c t, relText ts = c :: t → c.isAlphanum = false := by
    cases ts with
    | nil => intro c t h; cases h
    | cons s2 ss2 =>
      intro c t hct
      simp only [relText, List.cons_append, List.cons.injEq] at hct
      rw [← hct.1]
      decide
  have hspan : alnumSpan (s ++ relText ts) = (s, relText ts) :=
    spanP_append _ _ _ haln hbound
  have hloc : localAux (relText ts).length (relText ts) = (ts, []) :=
    localAux_spec ts (relText ts).length
      (fun x hx => hsegs x (List.mem_cons_of_mem _ hx)) (Nat.le_refl _)
  rw [joinDot_cons]
  have hentry : parseLocal ('+' :: (s ++ relText ts)) =
      (match alnumSpan (s ++ relText ts) with
       | ([], _) => (none, '+' :: (s ++ relText ts))
       | (d :: ds, rest2) =>
         (some ((d :: ds) :: (localAux rest2.length rest2).1),
          (localAux rest2.length rest2).2)) := rfl
  rw [hentry, hspan]
  simp only [hs]
  rw [hloc]

theorem matchEpoch_none (n : Nat) (r : List Char)
    (hr1 : ∀ c t, r = c :: t → c.isDigit = false)
    (hr2 : ∀ c t, r = c :: t → ¬c = '!') :
    matchEpoch (natDigits n ++ r) = (none, natDigits n ++ r) := by
  obtain ⟨d, ds, hnd, hd⟩ := natDigits_head_digit n
  have hspan := digitSpan_canonical n r hr1
  rw [matchEpoch, hspan]
  cases hrr : r with
  | nil => simp only [hnd]
  | cons c t =>
    have hbang : ¬c = '!' := hr2 c t hrr
    simp only [hnd]
    rw [if_neg hbang]

theorem matchEpoch_some (e : Nat) (rest : List Char) :
    matchEpoch (natDigits e ++ '!' :: rest) = (some (natDigits e), rest) := by
  obtain ⟨d, ds, hnd, hd⟩ := natDigits_head_digit e
  have hspan : digitSpan (natDigits e ++ '!' :: rest) = (natDigits e, '!' :: rest) :=
    spanP_append _ _ _ (natDigits_all_digit e) (fun c t he => by cases he; decide)
  rw [matchEpoch, hspan]
  simp only [hnd]
  rfl

theorem starSpan_canonical (n : Nat) (r : List Char)
    (hr : ∀ c t, r = c :: t → c.isDigit = false ∧ ¬c = '*') :
    starSpan (natDigits n ++ r) = (natDigits n, r) := by
  apply spanP_append
  · have hall := natDigits_all_digit n
    simp only [List.all_eq_true] at hall ⊢
    intro c hc
    simp [hall c hc]
  · intro c t he
    obtain ⟨h1, h2⟩ := hr c t he
    simp [h1, h2]

theorem dropWhile_not_space (c : Char) (t : List Char) (h : isSpaceChar c = false) :
    List.dropWhile isSpaceChar (c :: t) = c :: t := by
  simp [List.dropWhile, h]

theorem stripV_not_v (c : Char) (t : List Char) (h : ¬lowerChar c = 'v') :
    stripV (c :: t) = c :: t := by
  simp [stripV, h]

theorem to_text_decompose (v : Version) :
    v.to_text = epochText v.epoch ++ joinDot (v.release.map natDigits)
      ++ preText v.pre ++ postText v.post ++ devText v.dev ++ localText v.«local» := by
  rcases v with ⟨e, rel, pre, post, dev, loc⟩
  rcases pre with _ | ⟨k, n⟩ <;> cases post <;> cases dev <;> cases loc <;> rfl

theorem validSeg_text {seg : LocalSegment} (h : validLocalSeg seg = true) :
    seg.to_text ≠ [] ∧ (seg.to_text).all Char.isAlphanum = true := by
  cases seg with
  | Number n =>
    refine ⟨natDigits_ne_nil n, ?_⟩
    have := natDigits_all_digit n
    simp only [List.all_eq_true] at this ⊢
    exact fun c hc => digit_isAlphanum (this c hc)
  | String s =>
    simp only [validLocalSeg, Bool.and_eq_true, Bool.not_eq_true',
      List.isEmpty_eq_false, List.all_eq_true, List.any_eq_true] at h
    obtain ⟨⟨hne, hall⟩, _⟩ := h
    refine ⟨?_, ?_⟩
    · simpa [LocalSegment.to_text] using hne
    · simp only [LocalSegment.to_text, List.all_eq_true]
      intro c hc
      rcases Bool.or_eq_true_iff.mp (hall c hc) with hl | hd
      · exact lower_isAlphanum hl
      · exact digit_isAlphanum hd

theorem stage_local (loc : Option (List LocalSegment))
    (hval : ∀ segs, loc = some segs → segs ≠ [] ∧ ∀ x ∈ segs, validLocalSeg x = true) :
    parseLocal (localText loc)
        = (loc.map (fun segs => segs.map LocalSegment.to_text), [])
      ∧ (localText loc = [] ∨ ∃ t, localText loc = '+' :: t) := by
  cases loc with
  | none => exact ⟨rfl, Or.inl rfl⟩
  | some segs =>
    obtain ⟨hne, hval'⟩ := hval segs rfl
    obtain ⟨sg, sgs, rfl⟩ : ∃ sg sgs, segs = sg :: sgs := by
      cases segs with
      | nil => exact absurd rfl hne
      | cons sg sgs => exact ⟨sg, sgs, rfl⟩
    refine ⟨?_, Or.inr ⟨_, rfl⟩⟩
    show parseLocal ('+' :: joinDot ((sg :: sgs).map LocalSegment.to_text)) = _
    have hres := parseLocal_canonical sg.to_text (sgs.map LocalSegment.to_text) ?_
    · simpa using hres
    · intro x hx
      rcases List.mem_cons.mp hx with rfl | hx2
      · exact validSeg_text (hval' sg (List.mem_cons_self _ _))
      · obtain ⟨seg, hseg, rfl⟩ := List.mem_map.mp hx2
        exact validSeg_text (hval' seg (List.mem_cons_of_mem _ hseg))

theorem stage_dev (dev : Option Nat) (rest : List Char)
    (hshape : rest = [] ∨ ∃ t, rest = '+' :: t) :
    parseDevField (devText dev ++ rest)
      = (dev.map (fun n => some (natDigits n)), rest) := by
  cases dev with
  | none =>
    show parseDevField rest = (none, rest)
    exact parseDevField_skip hshape
  | some n =>
    show parseDevField (('.' :: 'd' :: 'e' :: 'v' :: natDigits n) ++ rest) = _
    have : ('.' :: 'd' :: 'e' :: 'v' :: natDigits n) ++ rest
        = '.' :: 'd' :: 'e' :: 'v' :: (natDigits n ++ rest) := by simp
    rw [this]
    exact parseDevField_canonical n rest
      (by rcases hshape with rfl | ⟨t, rfl⟩ <;> intro c t2 he <;> cases he <;> decide)

theorem stage_post (post : Option Nat) (rest : List Char)
    (hshape : rest = [] ∨ (∃ t, rest = '+' :: t) ∨ (∃ t, rest = '.' :: 'd' :: 'e' :: 'v' :: t)) :
    parsePostField (postText post ++ rest)
      = (post.map (fun n => (none, some (natDigits n))), rest) := by
  cases post with
  | none =>
    show parsePostField rest = (none, rest)
    exact parsePostField_skip hshape
  | some n =>
    show parsePostField (('.' :: 'p' :: 'o' :: 's' :: 't' :: natDigits n) ++ rest) = _
    have : ('.' :: 'p' :: 'o' :: 's' :: 't' :: natDigits n) ++ rest
        = '.' :: 'p' :: 'o' :: 's' :: 't' :: (natDigits n ++ rest) := by simp
    rw [this]
    exact parsePostField_canonical n rest
      (by rcases hshape with rfl | ⟨t, rfl⟩ | ⟨t, rfl⟩ <;> intro c t2 he <;> cases he <;> decide)

theorem stage_pre (pre : Option (PreRelease × Nat)) (rest : List Char)
    (hshape : TailShape rest) :
    parsePreField (preText pre ++ rest)
      = (pre.map (fun p => (p.1.to_text, some (natDigits p.2))), rest) := by
  rcases pre with _ | ⟨k, n⟩
  · show parsePreField rest = (none, rest)
    exact parsePreField_skip hshape
  · show parsePreField ((k.to_text ++ natDigits n) ++ rest) = _
    rw [List.append_assoc]
    exact parsePreField_canonical k n rest (tailShape_not_digit hshape)

theorem shape_dev_local (dev : Option Nat) (rest : List Char)
    (h : rest = [] ∨ ∃ t, rest = '+' :: t) :
    (devText dev ++ rest) = [] ∨ (∃ t, (devText dev ++ rest) = '+' :: t)
      ∨ (∃ t, (devText dev ++ rest) = '.' :: 'd' :: 'e' :: 'v' :: t) := by
  cases dev with
  | none =>
    rcases h with rfl | ⟨t, rfl⟩
    · exact Or.inl rfl
    · exact Or.inr (Or.inl ⟨t, rfl⟩)
  | some n => exact Or.inr (Or.inr ⟨natDigits n ++ rest, by simp [devText]⟩)

theorem shape_post_dev_local (post : Option Nat) (X : List Char)
    (h : X = [] ∨ (∃ t, X = '+' :: t) ∨ (∃ t, X = '.' :: 'd' :: 'e' :: 'v' :: t)) :
    TailShape (postText post ++ X) := by
  cases post with
  | none =>
    rcases h with rfl | ⟨t, rfl⟩ | ⟨t, rfl⟩
    · exact Or.inl rfl
    · exact Or.inr (Or.inl ⟨t, rfl⟩)
    · exact Or.inr (Or.inr (Or.inr ⟨t, rfl⟩))
  | some n =>
    exact Or.inr (Or.inr (Or.inl ⟨natDigits n ++ X, by simp [postText]⟩))

theorem release_boundary (pre : Option (PreRelease × Nat)) (rest : List Char)
    (hshape : TailShape rest) :
    (∀ c t, preText pre ++ rest = c :: t → c.isDigit = false ∧ ¬c = '!' ∧ ¬c = '*')
    ∧ (∀ c t, preText pre ++ rest = '.' :: c :: t → c.isDigit = false) := by
  rcases pre with _ | ⟨k, n⟩
  · constructor
    · intro c t he
      simp only [preText, List.nil_append] at he
      exact ⟨tailShape_not_digit hshape c t he, tailShape_not_bang_star hshape c t he⟩
    · intro c t he
      simp only [preText, List.nil_append] at he
      exact tailShape_dot_second hshape c t he
  · cases k <;>
      (constructor
       · intro c t he
         simp only [preText, PreRelease.to_text, List.cons_append, List.append_assoc] at he
         injection he with h1 _
         rw [← h1]
         refine ⟨by decide, by decide, by decide⟩
       · intro c t he
         simp only [preText, PreRelease.to_text, List.cons_append, List.append_assoc] at he
         injection he with h1 _
         exact absurd h1.symm (by decide))

theorem matchVersion_to_text (v : Version) (hV : ValidVersion v = true) :
    matchVersion v.to_text = some (capturesOf v) := by
  rcases v with ⟨e, rel, pre, post, dev, loc⟩
  simp only [ValidVersion, Bool.and_eq_true, Bool.not_eq_true', List.isEmpty_eq_false] at hV
  obtain ⟨hrelne, hlocval⟩ := hV
  obtain ⟨r1, rs, rfl⟩ : ∃ r1 rs, rel = r1 :: rs := by
    cases rel with
    | nil => exact absurd rfl hrelne
    | cons r1 rs => exact ⟨r1, rs, rfl⟩
  have hvalloc : ∀ segs, loc = some segs → segs ≠ [] ∧ ∀ x ∈ segs, validLocalSeg x = true := by
    intro segs hseg
    rw [hseg] at hlocval
    simp only [Bool.and_eq_true, Bool.not_eq_true', List.isEmpty_eq_false,
      List.all_eq_true] at hlocval
    exact hlocval
  obtain ⟨hLoc, hLshape⟩ := stage_local loc hvalloc
  have hDshape := shape_dev_local dev (localText loc) hLshape
  have hDev := stage_dev dev (localText loc) hLshape
  have hTail : TailShape (postText post ++ (devText dev ++ localText loc)) :=
    shape_post_dev_local post _ hDshape
  have hPost := stage_post post (devText dev ++ localText loc) hDshape
  have hPre := stage_pre pre (postText post ++ (devText dev ++ localText loc)) hTail
  obtain ⟨hRB1, hRB2⟩ := release_boundary pre _ hTail
  have hsegsrel : ∀ s ∈ rs.map natDigits, s ≠ [] ∧ s.all Char.isDigit = true := by
    intro s hs
    obtain ⟨x, _, rfl⟩ := List.mem_map.mp hs
    exact ⟨natDigits_ne_nil x, natDigits_all_digit x⟩
  have hRelBound : ∀ c t,
      relText (rs.map natDigits)
          ++ (preText pre ++ (postText post ++ (devText dev ++ localText loc))) = c :: t →
        c.isDigit = false ∧ ¬c = '!' ∧ ¬c = '*' := by
    cases rs with
    | nil =>
      intro c t he
      simp only [List.map_nil, relText, List.nil_append] at he
      exact hRB1 c t he
    | cons r2 rs2 =>
      intro c t he
      simp only [List.map_cons, relText, List.cons_append] at he
      injection he with h1 _
      rw [← h1]
      refine ⟨by decide, by decide, by decide⟩
  obtain ⟨d1, ds1, hnd1, hd1⟩ := natDigits_head_digit r1
  have hjoin : joinDot (((r1 :: rs)).map natDigits)
      = natDigits r1 ++ relText (rs.map natDigits) := by
    rw [List.map_cons, joinDot_cons]
  have hdecomp := to_text_decompose ⟨e, r1 :: rs, pre, post, dev, loc⟩
  rw [hjoin] at hdecomp
  simp only [List.append_assoc] at hdecomp
  have hXcons : natDigits r1
      ++ (relText (rs.map natDigits)
        ++ (preText pre ++ (postText post ++ (devText dev ++ localText loc))))
      = d1 :: (ds1
        ++ (relText (rs.map natDigits)
          ++ (preText pre ++ (postText post ++ (devText dev ++ localText loc))))) := by
    rw [hnd1]
    rfl
  have hstarX : starSpan (natDigits r1
      ++ (relText (rs.map natDigits)
        ++ (preText pre ++ (postText post ++ (devText dev ++ localText loc)))))
      = (natDigits r1,
         relText (rs.map natDigits)
           ++ (preText pre ++ (postText post ++ (devText dev ++ localText loc)))) :=
    starSpan_canonical r1 _ (fun c t he => ⟨(hRelBound c t he).1, (hRelBound c t he).2.2⟩)
  have hrelfuel : (relText (rs.map natDigits)).length
      + (preText pre ++ (postText post ++ (devText dev ++ localText loc))).length
      ≤ (relText (rs.map natDigits)
          ++ (preText pre ++ (postText post ++ (devText dev ++ localText loc)))).length := by
    simp
  have hrelAux := relAux_spec (rs.map natDigits)
    (preText pre ++ (postText post ++ (devText dev ++ localText loc)))
    ((relText (rs.map natDigits)
      ++ (preText pre ++ (postText post ++ (devText dev ++ localText loc)))).length)
    hsegsrel (fun c t he => (hRB1 c t he).1) hRB2 hrelfuel
  by_cases he0 : e = 0
  · subst he0
    rw [show epochText 0 = [] from rfl, List.nil_append] at hdecomp
    rw [hdecomp]
    simp only [matchVersion]
    rw [hXcons, dropWhile_not_space d1 _ (digit_not_space hd1),
      stripV_not_v d1 _ (lowerChar_digit_ne hd1 (by decide)), ← hXcons]
    rw [matchEpoch_none r1 _ (fun c t he => (hRelBound c t he).1)
      (fun c t he => (hRelBound c t he).2.1)]
    simp only [hstarX]
    simp only [hnd1]
    simp only [hrelAux, hPre, hPost, hDev, hLoc, parseStar_nil, List.dropWhile_nil,
      List.isEmpty_nil, if_true]
    simp only [capturesOf, List.map_cons, hnd1]
    rcases pre with _ | ⟨k, n⟩ <;> cases post <;> cases dev <;> cases loc <;> rfl
  · have hepPart : epochText e = natDigits e ++ ['!'] := by
      simp [epochText, he0]
    rw [hepPart] at hdecomp
    simp only [List.append_assoc, List.singleton_append] at hdecomp
    obtain ⟨de, dse, hnde, hde⟩ := natDigits_head_digit e
    have hEcons : natDigits e ++ ('!' :: (natDigits r1
        ++ (relText (rs.map natDigits)
          ++ (preText pre ++ (postText post ++ (devText dev ++ localText loc))))))
        = de :: (dse ++ ('!' :: (natDigits r1
          ++ (relText (rs.map natDigits)
            ++ (preText pre ++ (postText post ++ (devText dev ++ localText loc))))))) := by
      rw [hnde]
      rfl
    rw [hdecomp]
    simp only [matchVersion]
    rw [hEcons, dropWhile_not_space de _ (digit_not_space hde),
      stripV_not_v de _ (lowerChar_digit_ne hde (by decide)), ← hEcons]
    rw [matchEpoch_some e _]
    simp only [hstarX]
    simp only [hnd1]
    simp only [hrelAux, hPre, hPost, hDev, hLoc, parseStar_nil, List.dropWhile_nil,
      List.isEmpty_nil, if_true]
    simp only [capturesOf, List.map_cons, hnd1, if_neg he0]
    rcases pre with _ | ⟨k, n⟩ <;> cases post <;> cases dev <;> cases loc <;> rfl

theorem toNat_ofNat_small (n : Nat) (h : n < 128) : (Char.ofNat n).toNat = n := by
  rw [Char.ofNat]
  rw [dif_pos (by constructor; omega)]
  rfl

theorem isUpper_toNat {c : Char} (h : c.isUpper = true) : 65 ≤ c.toNat ∧ c.toNat ≤ 90 := by
  simp only [Char.isUpper, Bool.and_eq_true, decide_eq_true_eq] at h
  exact ⟨h.1, h.2⟩

theorem isDigit_false_of {c : Char} (h : c.toNat < 48 ∨ 57 < c.toNat) : c.isDigit = false := by
  cases hb : c.isDigit
  · rfl
  · have := isDigit_toNat hb
    omega

theorem isLower_of_toNat {c : Char} (h1 : 97 ≤ c.toNat) (h2 : c.toNat ≤ 122) :
    c.isLower = true := by
  simp only [Char.isLower, Bool.and_eq_true, decide_eq_true_eq]
  exact ⟨h1, h2⟩

theorem lowerChar_toNat_upper {c : Char} (h1 : 65 ≤ c.toNat) (h2 : c.toNat ≤ 90) :
    (lowerChar c).toNat = c.toNat + 32 := by
  rw [lowerChar, if_pos ⟨h1, h2⟩]
  exact toNat_ofNat_small _ (by omega)

theorem lowerChar_isDigit (c : Char) : (lowerChar c).isDigit = c.isDigit := by
  by_cases h : 'A' ≤ c ∧ c ≤ 'Z'
  · have h1 : 65 ≤ c.toNat := h.1
    have h2 : c.toNat ≤ 90 := h.2
    have hl := lowerChar_toNat_upper h1 h2
    rw [isDigit_false_of (c := lowerChar c) (by omega), isDigit_false_of (by omega)]
  · rw [lowerChar, if_neg h]

theorem lowerChar_lower_or_digit {c : Char} (h : c.isAlphanum = true) :
    ((lowerChar c).isLower || (lowerChar c).isDigit) = true := by
  simp only [Char.isAlphanum, Char.isAlpha, Bool.or_eq_true] at h
  rcases h with (hu | hl) | hd
  · obtain ⟨h1, h2⟩ := isUpper_toNat hu
    have hln := lowerChar_toNat_upper h1 h2
    simp [isLower_of_toNat (c := lowerChar c) (by omega) (by omega)]
  · simp [lowerChar_lower hl, hl]
  · simp [lowerChar_digit hd, hd]

theorem PreRelease.from_str_to_text (k : PreRelease) :
    PreRelease.from_str k.to_text = some k := by
  cases k <;> rfl

theorem map_lowerChar_id {s : List Char}
    (h : ∀ c ∈ s, (c.isLower || c.isDigit) = true) : s.map lowerChar = s := by
  induction s with
  | nil => rfl
  | cons c t ih =>
    have hc := h c (List.mem_cons_self _ _)
    have : lowerChar c = c := by
      rcases Bool.or_eq_true_iff.mp hc with hl | hd
      · exact lowerChar_lower hl
      · exact lowerChar_digit hd
    simp [this, ih (fun x hx => h x (List.mem_cons_of_mem _ hx))]

theorem toLocalSegment_to_text {seg : LocalSegment} (h : validLocalSeg seg = true) :
    toLocalSegment seg.to_text = seg := by
  cases seg with
  | Number n =>
    simp [toLocalSegment, LocalSegment.to_text, parseNatSeg_natDigits]
  | String s =>
    simp only [validLocalSeg, Bool.and_eq_true, Bool.not_eq_true',
      List.isEmpty_eq_false, List.all_eq_true, List.any_eq_true] at h
    obtain ⟨⟨hne, hall⟩, c0, hc0, hc0d⟩ := h
    have hnone : parseNatSeg s = none := by
      rw [parseNatSeg, if_neg]
      simp only [Bool.and_eq_true, Bool.not_eq_true', List.all_eq_true, not_and]
      intro _ hcontra
      have := hcontra c0 hc0
      simp [this] at hc0d
    simp only [LocalSegment.to_text, toLocalSegment, hnone]
    rw [map_lowerChar_id hall]

theorem number_field_epoch (e : Nat) :
    number_field (if e = 0 then none else some (natDigits e))
      = some (if e = 0 then none else some e) := by
  by_cases he : e = 0 <;> simp [he, number_field, parseNatSeg_natDigits]

theorem epoch_getD (e : Nat) : (if e = 0 then none else some e).getD 0 = e := by
  by_cases he : e = 0 <;> simp [he]

theorem collectRelease_natDigits (rel : List Nat) :
    collectRelease (rel.map natDigits) = some rel := by
  induction rel with
  | nil => rfl
  | cons x xs ih => simp [collectRelease, parseNatSeg_natDigits, ih]

theorem map_toLocalSegment_to_text {segs : List LocalSegment}
    (h : segs.all validLocalSeg = true) :
    (segs.map LocalSegment.to_text).map toLocalSegment = segs := by
  induction segs with
  | nil => rfl
  | cons s t ih =>
    simp only [List.all_cons, Bool.and_eq_true] at h
    simp [toLocalSegment_to_text h.1, ih h.2]

theorem parse_version_impl_capturesOf (v : Version) (hV : ValidVersion v = true) :
    parse_version_impl (capturesOf v) = some (v, false) := by
  obtain ⟨e, rel, pre, post, dev, loc⟩ := v
  have hloc : loc.map (fun segs => (segs.map LocalSegment.to_text).map toLocalSegment)
      = loc := by
    cases loc with
    | none => rfl
    | some segs =>
      simp only [ValidVersion, Bool.and_eq_true, Bool.not_eq_true',
        List.isEmpty_eq_false] at hV
      simp only [Option.map_some']
      rw [map_toLocalSegment_to_text hV.2.2]
  rcases pre with _ | ⟨k, n⟩ <;> cases post <;> cases dev <;> by_cases he : e = 0 <;>
    simp_all [parse_version_impl, capturesOf, number_field_epoch, epoch_getD,
      collectRelease_natDigits, PreRelease.from_str_to_text, number_field,
      parseNatSeg_natDigits]

theorem version_from_str_to_text (v : Version) (hV : ValidVersion v = true) :
    Version.from_str v.to_text = some v := by
  rw [Version.from_str]
  rw [matchVersion_to_text v hV]
  simp [parse_version_impl_capturesOf v hV]

theorem parse_version_impl_shape (caps : Captures) (v : Version) (b : Bool)
    (h : parse_version_impl caps = some (v, b)) :
    collectRelease caps.release = some v.release ∧
    v.«local» = caps.«local».map (fun segs => segs.map toLocalSegment) := by
  obtain ⟨ep, rel, pn, pr, pf, po, pnw, df, dv, lc, st⟩ := caps
  obtain ⟨ve, vrel, vpre, vpost, vdev, vloc⟩ := v
  cases pn <;> cases pf <;> cases df <;>
    simp only [parse_version_impl, bind, Option.bind_eq_some, Option.map_eq_some',
      Option.some_bind, Bool.false_eq_true, Bool.false_and, if_false, ite_false,
      eq_self_iff_true, if_true, ite_true,
      Bool.and_eq_true, Option.pure_def, Option.some_inj] at h
  all_goals (repeat (first | (obtain ⟨_, _, h⟩ := h) | (simp only [Option.bind_eq_some] at h)))
  all_goals split_ifs at h <;> simp_all [Prod.mk.injEq, Version.mk.injEq]

theorem validLocalSeg_toLocalSegment {seg : List Char} (hne : seg ≠ [])
    (hall : seg.all Char.isAlphanum = true) :
    validLocalSeg (toLocalSegment seg) = true := by
  rw [toLocalSegment]
  cases hp : parseNatSeg seg with
  | some n => rfl
  | none =>
    simp only [validLocalSeg, Bool.and_eq_true, Bool.not_eq_true', List.isEmpty_eq_false]
    refine ⟨⟨by simp [hne], ?_⟩, ?_⟩
    · simp only [List.all_eq_true] at hall ⊢
      intro c hc
      obtain ⟨c0, hc0, rfl⟩ := List.mem_map.mp hc
      exact lowerChar_lower_or_digit (hall c0 hc0)
    · rw [parseNatSeg] at hp
      have hcond : (!seg.isEmpty && seg.all Char.isDigit) = false := by
        by_contra hb
        rw [if_pos (by simpa using hb)] at hp
        cases hp
      have hie : seg.isEmpty = false := by simpa using hne
      rw [hie] at hcond
      simp only [Bool.not_false, Bool.true_and] at hcond
      obtain ⟨c0, hc0, hc0d⟩ := by
        simpa [List.all_eq_true] using hcond
      simp only [List.any_eq_true]
      refine ⟨lowerChar c0, List.mem_map.mpr ⟨c0, hc0, rfl⟩, ?_⟩
      simp [lowerChar_isDigit, hc0d]

theorem localAux_sound (fuel : Nat) (cs : List Char) :
    ∀ seg ∈ (localAux fuel cs).1, seg ≠ [] ∧ seg.all Char.isAlphanum = true := by
  induction fuel generalizing cs with
  | zero => intro seg hseg; simp [localAux] at hseg
  | succ n ih =>
    intro seg hseg
    match cs with
    | [] => simp [localAux] at hseg
    | c :: rest =>
      rw [localAux] at hseg
      by_cases hc : isSepChar c = true
      · rw [if_pos hc] at hseg
        cases hsp : alnumSpan rest with
        | mk fst snd =>
          cases fst with
          | nil => rw [hsp] at hseg; simp at hseg
          | cons d ds =>
            rw [hsp] at hseg
            simp only [List.mem_cons] at hseg
            rcases hseg with rfl | hmem
            · refine ⟨by simp, ?_⟩
              have := spanP_all Char.isAlphanum rest
              rw [show spanP Char.isAlphanum rest = (d :: ds, snd) from hsp] at this
              exact this
            · exact ih _ _ hmem
      · rw [if_neg hc] at hseg; simp at hseg

theorem parseLocal_sound {cs : List Char} {segs : List (List Char)} {rest : List Char}
    (h : parseLocal cs = (some segs, rest)) :
    segs ≠ [] ∧ ∀ seg ∈ segs, seg ≠ [] ∧ seg.all Char.isAlphanum = true := by
  match cs with
  | [] => simp [parseLocal] at h
  | c :: r =>
    rw [parseLocal] at h
    by_cases hc : c = '+'
    · rw [if_pos hc] at h
      cases hsp : alnumSpan r with
      | mk fst snd =>
        cases fst with
        | nil => rw [hsp] at h; cases h
        | cons d ds =>
          rw [hsp] at h
          injection h with h1 h2
          injection h1 with h1
          subst h1
          constructor
          · simp
          · intro seg hseg
            simp only [List.mem_cons] at hseg
            rcases hseg with rfl | hmem
            · refine ⟨by simp, ?_⟩
              have := spanP_all Char.isAlphanum r
              rw [show spanP Char.isAlphanum r = (d :: ds, snd) from hsp] at this
              exact this
            · exact localAux_sound _ _ _ hmem
    · rw [if_neg hc] at h; cases h

theorem collectRelease_ne_nil {s : List Char} {rest : List (List Char)} {r : List Nat}
    (h : collectRelease (s :: rest) = some r) : r ≠ [] := by
  simp only [collectRelease, bind, Option.bind_eq_some, Option.pure_def,
    Option.some_inj] at h
  obtain ⟨n, hn, ns, hns, hr⟩ := h
  rw [← hr]
  simp

theorem matchVersion_sound {cs : List Char} {caps : Captures}
    (h : matchVersion cs = some caps) :
    caps.release ≠ [] ∧
    ∀ segs, caps.«local» = some segs →
      segs ≠ [] ∧ ∀ seg ∈ segs, seg ≠ [] ∧ seg.all Char.isAlphanum = true := by
  simp only [matchVersion] at h
  split at h
  · cases h
  · split at h
    · injection h with h1
      subst h1
      refine ⟨by simp, ?_⟩
      intro segs hsegs
      exact parseLocal_sound (Prod.ext hsegs rfl)
    · cases h

theorem from_str_valid {s : List Char} {v : Version}
    (h : Version.from_str s = some v) : ValidVersion v = true := by
  simp only [Version.from_str, bind, Option.bind_eq_some, Option.pure_def,
    Option.some_inj] at h
  obtain ⟨caps, hcaps, p, hp, hfin⟩ := h
  obtain ⟨v', star⟩ := p
  cases star with
  | true => simp at hfin
  | false =>
    simp only [if_neg Bool.false_ne_true, Option.some_inj] at hfin
    subst hfin
    obtain ⟨hrelc, hlocc⟩ := matchVersion_sound hcaps
    obtain ⟨hcollect, hlocal⟩ := parse_version_impl_shape caps v' false hp
    rw [ValidVersion]
    simp only [Bool.and_eq_true, Bool.not_eq_true', List.isEmpty_eq_false]
    constructor
    · match hr : caps.release with
      | [] => exact absurd hr hrelc
      | s0 :: rest =>
        rw [hr] at hcollect
        exact collectRelease_ne_nil hcollect
    · match hl : v'.«local» with
      | none => rfl
      | some lsegs =>
        rw [hl] at hlocal
        match hcl : caps.«local» with
        | none => rw [hcl] at hlocal; cases hlocal
        | some csegs =>
          rw [hcl] at hlocal
          simp only [Option.map_some', Option.some_inj] at hlocal
          obtain ⟨hcne, hcall⟩ := hlocc csegs hcl
          subst hlocal
          simp only [Bool.and_eq_true, Bool.not_eq_true', List.isEmpty_eq_false]
          refine ⟨by simp [hcne], ?_⟩
          simp only [List.all_eq_true]
          intro seg hseg
          obtain ⟨seg0, hseg0, rfl⟩ := List.mem_map.mp hseg
          obtain ⟨hne0, hall0⟩ := hcall seg0 hseg0
          exact validLocalSeg_toLocalSegment hne0 hall0

/-- **C2.** Normalization is idempotent: whenever `Version::from_str` accepts a
string `s` and returns `v`, re-parsing the canonical display `v.to_text`
returns exactly `v` again, and the canonical display is a fixed point of
parse-then-display. -/
theorem normalization_idempotent (s : List Char) (v : Version)
    (h : Version.from_str s = some v) :
    Version.from_str v.to_text = some v ∧
    (Version.from_str v.to_text).map Version.to_text = some v.to_text := by
  have hV := from_str_valid h
  have h1 := version_from_str_to_text v hV
  exact ⟨h1, by rw [h1]; rfl⟩

theorem normalization_idempotent_witness :
    Version.from_str "1.0a1".data
        = some ⟨0, [1, 0], some (PreRelease.Alpha, 1), none, none, none⟩ ∧
      (Version.from_str (Version.to_text
          ⟨0, [1, 0], some (PreRelease.Alpha, 1), none, none, none⟩)
        = some ⟨0, [1, 0], some (PreRelease.Alpha, 1), none, none, none⟩ ∧
       (Version.from_str (Version.to_text
          ⟨0, [1, 0], some (PreRelease.Alpha, 1), none, none, none⟩)).map Version.to_text
        = some (Version.to_text
          ⟨0, [1, 0], some (PreRelease.Alpha, 1), none, none, none⟩)) :=
  ⟨by decide, normalization_idempotent "1.0a1".data
    ⟨0, [1, 0], some (PreRelease.Alpha, 1), none, none, none⟩ (by decide)⟩
